import Mathlib

/-! Verification of `LoadYAML` (pkg/utils/yaml.go).

A shallow embedding of the two-pass YAML loader.

* First pass: the `bufio.Scanner` loop that records line ranges.
* Second pass: the `yaml.Decoder` / `yaml.Marshal` loop that attaches the
  re-encoded document bytes to the records by position.

Everything outside the function (the file system, the line scanner, the YAML
library) is an explicit input, collected in `FileView`.  Go `int` line
counters are `Nat`: they start at 1 and are only incremented, once per scanned
line, so 64-bit overflow is out of reach of any list of lines.
-/

namespace utils

/-- Byte slices (`[]byte`), as lists of byte values. -/
abbrev Bytes := List Nat

/-- An error value produced outside this package (`os`, `bufio`, `yaml`),
identified by its message. -/
abbrev ExtError := String

/-- The error values `LoadYAML` can return: the package-private variable
`errHighDocumentCount`, or an error handed over by an external package.  Go
compares error values by identity, and no external package can return the
package-private variable, hence the two constructors. -/
inductive GoError where
  | errHighDocumentCount
  | external (e : ExtError)
  deriving DecidableEq, Repr

/-- The message of `errHighDocumentCount`. -/
def GoError.message : GoError → String
  | .errHighDocumentCount => "document count was higher than expected count"
  | .external e => e

/-- YAMLDoc type for yaml files. -/
def YAMLDoc : String := "yaml"

/-- Modelled from the spec: the `IacDocument` struct is declared in another file
of the package; the fields are the ones `LoadYAML` writes (`Type`, `StartLine`,
`EndLine`, `FilePath`, `Data`).  `Type` is a reserved word, so the field is
called `DocType`.  `Data` is `none` for the nil slice of a record whose content
was never assigned. -/
structure IacDocument where
  DocType : String
  StartLine : Nat
  EndLine : Nat
  FilePath : String
  Data : Option Bytes
  deriving DecidableEq, Repr

/-- Outcome of one call of `dec.Decode(&value)`. -/
inductive DecodeResult (V : Type) where
  | eof
  | fail (e : ExtError)
  | value (v : V)
  deriving DecidableEq, Repr

/-- What the outside world shows to one call of `LoadYAML filePath`.

* `openErr`: the error of `os.Open`, if any;
* `lines`: the texts delivered by successive `scanner.Scan()` calls
  (valid UTF-8, so that a byte prefix is a character prefix);
* `scanErr`: the value of `scanner.Err()` after the loop;
* `readErr`: the error of `ioutil.ReadFile`, if any;
* `decode n`: the outcome of call number `n` (from 0) of `dec.Decode`;
* `marshal`: `yaml.Marshal`. -/
structure FileView (V : Type) where
  openErr : Option ExtError
  lines : List String
  scanErr : Option ExtError
  readErr : Option ExtError
  decode : Nat → DecodeResult V
  marshal : V → Except ExtError Bytes

/-- Go `strings.HasPrefix`. -/
def HasPrefix (s pre : String) : Bool :=
  pre.data.isPrefixOf s.data

/-- The variables of the first pass. -/
structure ScanState where
  iacDocumentList : List IacDocument
  startLineNumber : Nat
  currentLineNumber : Nat
  deriving DecidableEq, Repr

/-- One iteration of `for scanner.Scan() { ... }` on the scanned text. -/
def scanStep (filePath : String) (st : ScanState) (text : String) : ScanState :=
  if HasPrefix text "---" then
    { iacDocumentList := st.iacDocumentList ++
        [{ DocType := YAMLDoc, StartLine := st.startLineNumber,
           EndLine := st.currentLineNumber, FilePath := filePath, Data := none }],
      startLineNumber := st.currentLineNumber + 1,
      currentLineNumber := st.currentLineNumber + 1 }
  else
    { st with currentLineNumber := st.currentLineNumber + 1 }

/-- The scanner loop, from the state it is entered with. -/
def scanLoop (filePath : String) (st : ScanState) (lines : List String) : ScanState :=
  lines.foldl (scanStep filePath) st

/-- The first pass up to and including "Add the very last entry". -/
def firstPass (filePath : String) (lines : List String) : List IacDocument :=
  let st := scanLoop filePath
    { iacDocumentList := [], startLineNumber := 1, currentLineNumber := 1 } lines
  st.iacDocumentList ++
    [{ DocType := YAMLDoc, StartLine := st.startLineNumber,
       EndLine := st.currentLineNumber, FilePath := filePath, Data := none }]

/-- The assignment `iacDocumentList[i].Data = documentBytes` (the loop only
performs it at an index inside the list). -/
def setData (docs : List IacDocument) (i : Nat) (documentBytes : Bytes) :
    List IacDocument :=
  match docs[i]? with
  | some d => docs.set i { d with Data := some documentBytes }
  | none => docs

/-- The second-pass loop `for { ... }`, entered with index `i`.  Call number
`i` of `dec.Decode` is made exactly when the index is `i`, because every
iteration that continues increments the index.  The comparison
`i > len(iacDocumentList) - 1` is on Go `int`, hence on `Int` here. -/
def decodeLoop {V : Type} (decode : Nat → DecodeResult V)
    (marshal : V → Except ExtError Bytes)
    (iacDocumentList : List IacDocument) (i : Nat) :
    List IacDocument × Option GoError :=
  match decode i with
  | .eof => (iacDocumentList, none)
  | .fail e => (iacDocumentList, some (.external e))
  | .value v =>
    if (i : Int) > (iacDocumentList.length : Int) - 1 then
      (iacDocumentList, some .errHighDocumentCount)
    else
      match marshal v with
      | .error e => (iacDocumentList, some (.external e))
      | .ok documentBytes =>
        decodeLoop decode marshal (setData iacDocumentList i documentBytes) (i + 1)
termination_by iacDocumentList.length - i
decreasing_by
  have hlen : (setData iacDocumentList i documentBytes).length = iacDocumentList.length := by
    unfold setData
    split <;> simp
  omega

/-- The function `LoadYAML`: the record list and the error (`none` for nil). -/
def LoadYAML {V : Type} (w : FileView V) (filePath : String) :
    List IacDocument × Option GoError :=
  match w.openErr with
  | some e => ([], some (.external e))
  | none =>
    let iacDocumentList := firstPass filePath w.lines
    match w.scanErr with
    | some e => (iacDocumentList, some (.external e))
    | none =>
      match w.readErr with
      | some e => (iacDocumentList, some (.external e))
      | none => decodeLoop w.decode w.marshal iacDocumentList 0

/-- Number of scanned lines that begin with the three characters `---`. -/
def countMarkers (lines : List String) : Nat :=
  (lines.filter (fun text => HasPrefix text "---")).length

/-- A record with its content forgotten: what the first pass alone determines. -/
def stripData (d : IacDocument) : IacDocument :=
  { d with Data := none }

/-- The list `docs` is a chain of line ranges: the first one starts at `s`, each
next one starts one past the end of the previous one, and a record appended
after the last one would have to start at `t`. -/
def Linked : Nat → List IacDocument → Nat → Prop
  | s, [], t => s = t
  | s, d :: ds, t => d.StartLine = s ∧ Linked (d.EndLine + 1) ds t

/-- The reason for which the second-pass loop, run on a list of `len` records,
leaves at index `s` with the error `err`: end of stream (no error), a decode
error, one document too many, or an encode error. -/
def StopsAt {V : Type} (decode : Nat → DecodeResult V)
    (marshal : V → Except ExtError Bytes) (len s : Nat) (err : Option GoError) : Prop :=
  match decode s with
  | .eof => err = none
  | .fail e => err = some (.external e)
  | .value v =>
    if len ≤ s then err = some .errHighDocumentCount
    else
      match marshal v with
      | .error e => err = some (.external e)
      | .ok _ => False

/-- The line numbers of the marker lines among `lines`, in file order, when
the first of `lines` has line number `c`. -/
def markerLinesFrom (c : Nat) : List String → List Nat
  | [] => []
  | text :: rest =>
    if HasPrefix text "---" then c :: markerLinesFrom (c + 1) rest
    else markerLinesFrom (c + 1) rest

/-- The 1-based line numbers `m_1 < ... < m_k` of the marker lines of a file. -/
def markerLines (lines : List String) : List Nat :=
  markerLinesFrom 1 lines

/-- The second-pass loop once more, entered with index `i`, returning instead
of its result the number of calls of `dec.Decode` it makes and the number of
assignments `iacDocumentList[i].Data = documentBytes` it performs. -/
def decodeSteps {V : Type} (decode : Nat → DecodeResult V)
    (marshal : V → Except ExtError Bytes)
    (iacDocumentList : List IacDocument) (i : Nat) : Nat × Nat :=
  match decode i with
  | .eof => (1, 0)
  | .fail _ => (1, 0)
  | .value v =>
    if (i : Int) > (iacDocumentList.length : Int) - 1 then
      (1, 0)
    else
      match marshal v with
      | .error _ => (1, 0)
      | .ok documentBytes =>
        let later := decodeSteps decode marshal (setData iacDocumentList i documentBytes) (i + 1)
        (later.1 + 1, later.2 + 1)
termination_by iacDocumentList.length - i
decreasing_by
  have hlen : (setData iacDocumentList i documentBytes).length = iacDocumentList.length := by
    unfold setData
    split <;> simp
  omega

/-! ## Sample files

Concrete inputs on which the theorems below are instantiated.  The decoded
values are a small stand-in for the generic `interface{}` values of the YAML
library. -/

/-- A decoded YAML value: the null document, or a one-entry mapping given by
the bytes of its key and of its value. -/
inductive SampleValue where
  | null
  | mapping (key val : Bytes)
  deriving DecidableEq, Repr

/-- Canonical encoding of a sample value: `null`, or `key: val`, each followed
by a newline. -/
def sampleMarshal : SampleValue → Except ExtError Bytes
  | .null => .ok [110, 117, 108, 108, 10]
  | .mapping key val => .ok (key ++ [58, 32] ++ val ++ [10])

/-- The document `a: 1`. -/
def docA : SampleValue := .mapping [97] [49]

/-- The document `b: 2`. -/
def docB : SampleValue := .mapping [98] [50]

/-- A one-line file holding the single document `a: 1`. -/
def singleDocView : FileView SampleValue where
  openErr := none
  lines := ["a: 1"]
  scanErr := none
  readErr := none
  decode := fun n => match n with
    | 0 => .value docA
    | _ => .eof
  marshal := sampleMarshal

/-- The file `a: 1`, `---`, `b: 2`, `---`.  The decoder yields the two
mappings and then the null document of the empty section after the last
marker. -/
def scenarioView : FileView SampleValue where
  openErr := none
  lines := ["a: 1", "---", "b: 2", "---"]
  scanErr := none
  readErr := none
  decode := fun n => match n with
    | 0 => .value docA
    | 1 => .value docB
    | 2 => .value .null
    | _ => .eof
  marshal := sampleMarshal

/-- A file in which the scan finds no marker line while the decoder yields two
documents (here they are separated by the document end marker `...`). -/
def overflowView : FileView SampleValue where
  openErr := none
  lines := ["a: 1", "...", "b: 2"]
  scanErr := none
  readErr := none
  decode := fun n => match n with
    | 0 => .value docA
    | 1 => .value docB
    | _ => .eof
  marshal := sampleMarshal

/-- A file whose second document is malformed: the decoder yields `a: 1` and
then reports an error. -/
def brokenView : FileView SampleValue where
  openErr := none
  lines := ["a: 1", "---", "b: ["]
  scanErr := none
  readErr := none
  decode := fun n => match n with
    | 0 => .value docA
    | _ => .fail "yaml: line 3: did not find expected node content"
  marshal := sampleMarshal

/-- A file ending on a marker line for which the decoder yields one document
only. -/
def shortView : FileView SampleValue where
  openErr := none
  lines := ["a: 1", "---"]
  scanErr := none
  readErr := none
  decode := fun n => match n with
    | 0 => .value docA
    | _ => .eof
  marshal := sampleMarshal

/-- A file whose scan fails (a line longer than the scanner's buffer) after
three lines were delivered, one of them a marker line. -/
def scanFailureView : FileView SampleValue where
  openErr := none
  lines := ["a: 1", "---", "b: 2"]
  scanErr := some "bufio.Scanner: token too long"
  readErr := none
  decode := fun n => match n with
    | 0 => .value docA
    | 1 => .value docB
    | _ => .eof
  marshal := sampleMarshal

/-- A file that starts with a marker line and holds one document. -/
def leadingMarkerView : FileView SampleValue where
  openErr := none
  lines := ["---", "a: 1"]
  scanErr := none
  readErr := none
  decode := fun n => match n with
    | 0 => .value docA
    | _ => .eof
  marshal := sampleMarshal

/-- A decoder that never reaches the end of its stream: every call yields the
null document. -/
def endlessView : FileView SampleValue where
  openErr := none
  lines := ["a: 1", "---", "b: 2"]
  scanErr := none
  readErr := none
  decode := fun _ => .value .null
  marshal := sampleMarshal

/-! ## The first pass -/

theorem length_setData (docs : List IacDocument) (i : Nat) (b : Bytes) :
    (setData docs i b).length = docs.length := by
  unfold setData
  split <;> simp

theorem scanLoop_nil (filePath : String) (st : ScanState) :
    scanLoop filePath st [] = st := rfl

theorem scanLoop_cons (filePath : String) (st : ScanState) (text : String)
    (rest : List String) :
    scanLoop filePath st (text :: rest) = scanLoop filePath (scanStep filePath st text) rest :=
  rfl

theorem countMarkers_cons (text : String) (rest : List String) :
    countMarkers (text :: rest) =
      (if HasPrefix text "---" then 1 else 0) + countMarkers rest := by
  unfold countMarkers
  by_cases h : HasPrefix text "---" = true
  · simp [List.filter, h]
    omega
  · simp [List.filter, h]

theorem scanLoop_currentLineNumber (filePath : String) (lines : List String)
    (st : ScanState) :
    (scanLoop filePath st lines).currentLineNumber = st.currentLineNumber + lines.length := by
  induction lines generalizing st with
  | nil => simp [scanLoop_nil]
  | cons text rest ih =>
    rw [scanLoop_cons, ih]
    unfold scanStep
    split <;> simp <;> omega

theorem scanLoop_length (filePath : String) (lines : List String) (st : ScanState) :
    (scanLoop filePath st lines).iacDocumentList.length =
      st.iacDocumentList.length + countMarkers lines := by
  induction lines generalizing st with
  | nil => simp [scanLoop_nil, countMarkers]
  | cons text rest ih =>
    rw [scanLoop_cons, ih, countMarkers_cons]
    unfold scanStep
    split
    · simp
      omega
    · simp

theorem Linked_append (s m t : Nat) (xs ys : List IacDocument)
    (hx : Linked s xs m) (hy : Linked m ys t) : Linked s (xs ++ ys) t := by
  induction xs generalizing s with
  | nil =>
    simp only [Linked] at hx
    subst hx
    simpa using hy
  | cons d ds ih =>
    simp only [Linked] at hx
    exact ⟨hx.1, ih _ hx.2⟩

theorem scanLoop_linked (filePath : String) (lines : List String) (st : ScanState)
    (s : Nat) (h : Linked s st.iacDocumentList st.startLineNumber) :
    Linked s (scanLoop filePath st lines).iacDocumentList
      (scanLoop filePath st lines).startLineNumber := by
  induction lines generalizing st with
  | nil => simpa [scanLoop_nil] using h
  | cons text rest ih =>
    rw [scanLoop_cons]
    apply ih
    unfold scanStep
    split
    · exact Linked_append _ _ _ _ _ h ⟨rfl, rfl⟩
    · exact h

theorem firstPass_linked (filePath : String) (lines : List String) :
    Linked 1 (firstPass filePath lines) (lines.length + 2) := by
  unfold firstPass
  refine Linked_append _ _ _ _ _ (scanLoop_linked filePath lines _ 1 rfl) ⟨rfl, ?_⟩
  simp only [Linked, scanLoop_currentLineNumber]
  omega

theorem firstPass_length (filePath : String) (lines : List String) :
    (firstPass filePath lines).length = countMarkers lines + 1 := by
  simp [firstPass, scanLoop_length]

theorem Linked_head (s t : Nat) (docs : List IacDocument) (d : IacDocument)
    (h : Linked s docs t) (h0 : docs[0]? = some d) : d.StartLine = s := by
  cases docs with
  | nil => simp at h0
  | cons x xs =>
    simp at h0
    subst h0
    exact h.1

theorem Linked_adjacent (s t : Nat) (docs : List IacDocument) (i : Nat)
    (a b : IacDocument) (h : Linked s docs t)
    (ha : docs[i]? = some a) (hb : docs[i + 1]? = some b) :
    a.EndLine + 1 = b.StartLine := by
  induction docs generalizing s i with
  | nil => simp at ha
  | cons x xs ih =>
    cases i with
    | zero =>
      simp at ha hb
      subst ha
      exact (Linked_head _ _ _ _ h.2 (by simpa using hb)).symm
    | succ i =>
      simp at ha hb
      exact ih _ _ h.2 ha hb

theorem Linked_last (s t : Nat) (docs : List IacDocument) (d : IacDocument)
    (h : Linked s docs t) (hd : docs.getLast? = some d) : d.EndLine + 1 = t := by
  induction docs generalizing s with
  | nil => simp at hd
  | cons x xs ih =>
    cases xs with
    | nil =>
      simp at hd
      subst hd
      exact h.2
    | cons y ys =>
      rw [List.getLast?_cons_cons] at hd
      exact ih _ h.2 hd

/-- Linking only looks at the line numbers, which `stripData` keeps. -/
theorem Linked_of_map_stripData (s t : Nat) (xs ys : List IacDocument)
    (hxy : xs.map stripData = ys.map stripData) (h : Linked s ys t) : Linked s xs t := by
  induction xs generalizing s ys with
  | nil =>
    cases ys with
    | nil => exact h
    | cons y ys => simp at hxy
  | cons x xs ih =>
    cases ys with
    | nil => simp at hxy
    | cons y ys =>
      simp only [List.map_cons, List.cons.injEq] at hxy
      have h1 : x.StartLine = y.StartLine := by
        have := congrArg IacDocument.StartLine hxy.1
        exact this
      have h2 : x.EndLine = y.EndLine := by
        have := congrArg IacDocument.EndLine hxy.1
        exact this
      refine ⟨h1.trans h.1, ?_⟩
      rw [h2]
      exact ih _ _ hxy.2 h.2

/-- What the first pass writes in every record besides the line numbers. -/
theorem scanLoop_fields (filePath : String) (lines : List String) (st : ScanState)
    (h : ∀ d ∈ st.iacDocumentList,
      d.DocType = YAMLDoc ∧ d.FilePath = filePath ∧ d.Data = none) :
    ∀ d ∈ (scanLoop filePath st lines).iacDocumentList,
      d.DocType = YAMLDoc ∧ d.FilePath = filePath ∧ d.Data = none := by
  induction lines generalizing st with
  | nil => simpa [scanLoop_nil] using h
  | cons text rest ih =>
    rw [scanLoop_cons]
    apply ih
    unfold scanStep
    split
    · intro d hd
      rcases List.mem_append.mp hd with hd | hd
      · exact h d hd
      · rw [List.mem_singleton] at hd
        subst hd
        exact ⟨rfl, rfl, rfl⟩
    · exact h

theorem firstPass_fields (filePath : String) (lines : List String) :
    ∀ d ∈ firstPass filePath lines,
      d.DocType = YAMLDoc ∧ d.FilePath = filePath ∧ d.Data = none := by
  intro d hd
  unfold firstPass at hd
  rcases List.mem_append.mp hd with hd | hd
  · exact scanLoop_fields filePath lines _ (by simp) d hd
  · rw [List.mem_singleton] at hd
    subst hd
    exact ⟨rfl, rfl, rfl⟩

/-- Without a marker line the scanner loop only advances the line counter. -/
theorem scanLoop_no_marker (filePath : String) (lines : List String) (st : ScanState)
    (h : countMarkers lines = 0) :
    scanLoop filePath st lines =
      { st with currentLineNumber := st.currentLineNumber + lines.length } := by
  induction lines generalizing st with
  | nil => rfl
  | cons text rest ih =>
    rw [countMarkers_cons] at h
    have hrest : countMarkers rest = 0 := by omega
    have htext : ¬ HasPrefix text "---" = true := by
      intro ht
      rw [if_pos ht] at h
      omega
    rw [scanLoop_cons, ih _ hrest]
    simp only [scanStep, if_neg htext, List.length_cons]
    congr 1
    omega

theorem firstPass_no_marker (filePath : String) (lines : List String)
    (h : countMarkers lines = 0) :
    firstPass filePath lines =
      [{ DocType := YAMLDoc, StartLine := 1, EndLine := lines.length + 1,
         FilePath := filePath, Data := none }] := by
  unfold firstPass
  simp only [scanLoop_no_marker filePath lines _ h, List.nil_append]
  congr 2
  omega

theorem scanLoop_append (filePath : String) (st : ScanState) (xs ys : List String) :
    scanLoop filePath st (xs ++ ys) = scanLoop filePath (scanLoop filePath st xs) ys := by
  simp [scanLoop, List.foldl_append]

/-- After a marker line the next record starts at the current line counter. -/
theorem scanLoop_ends_on_marker (filePath : String) (st : ScanState)
    (lines : List String) (text : String) (hlast : lines.getLast? = some text)
    (hmark : HasPrefix text "---" = true) :
    (scanLoop filePath st lines).startLineNumber =
      (scanLoop filePath st lines).currentLineNumber := by
  obtain ⟨front, hfront⟩ : ∃ front, lines = front ++ [text] := by
    rcases List.eq_nil_or_concat lines with hnil | ⟨front, x, hx⟩
    · subst hnil
      simp at hlast
    · subst hx
      simp at hlast
      subst hlast
      exact ⟨front, by simp⟩
  subst hfront
  rw [scanLoop_append, scanLoop_cons, scanLoop_nil]
  simp [scanStep, hmark]

theorem HasPrefix_iff (text : String) :
    HasPrefix text "---" = true ↔ ∃ rest : String, text = "---" ++ rest := by
  unfold HasPrefix
  rw [List.isPrefixOf_iff_prefix]
  constructor
  · rintro ⟨t, ht⟩
    refine ⟨⟨t⟩, ?_⟩
    apply String.ext
    rw [String.data_append, ← ht]
  · rintro ⟨rest, hrest⟩
    refine ⟨rest.data, ?_⟩
    rw [hrest, String.data_append]

theorem scanStep_length (filePath : String) (st : ScanState) (text : String) :
    (scanStep filePath st text).iacDocumentList.length =
      st.iacDocumentList.length + (if HasPrefix text "---" then 1 else 0) := by
  unfold scanStep
  split <;> simp

theorem markerLinesFrom_cons (c : Nat) (text : String) (rest : List String) :
    markerLinesFrom c (text :: rest) =
      if HasPrefix text "---" then c :: markerLinesFrom (c + 1) rest
      else markerLinesFrom (c + 1) rest := rfl

theorem length_markerLinesFrom (c : Nat) (lines : List String) :
    (markerLinesFrom c lines).length = countMarkers lines := by
  induction lines generalizing c with
  | nil => rfl
  | cons text rest ih =>
    rw [countMarkers_cons]
    unfold markerLinesFrom
    split
    · rw [List.length_cons, ih]
      omega
    · rw [ih]
      omega

/-- Membership in `markerLinesFrom`: exactly the line numbers of the lines
that begin with `---`. -/
theorem mem_markerLinesFrom (c : Nat) (lines : List String) (m : Nat) :
    m ∈ markerLinesFrom c lines ↔
      ∃ i text, lines[i]? = some text ∧ HasPrefix text "---" = true ∧ m = c + i := by
  induction lines generalizing c with
  | nil => simp [markerLinesFrom]
  | cons x rest ih =>
    have hrest : (∃ i text, rest[i]? = some text ∧ HasPrefix text "---" = true ∧
        m = c + 1 + i) ↔
        ∃ i text, (x :: rest)[i + 1]? = some text ∧ HasPrefix text "---" = true ∧
          m = c + (i + 1) := by
      constructor
      · rintro ⟨i, text, h1, h2, h3⟩
        exact ⟨i, text, by simpa using h1, h2, by omega⟩
      · rintro ⟨i, text, h1, h2, h3⟩
        exact ⟨i, text, by simpa using h1, h2, by omega⟩
    unfold markerLinesFrom
    split
    · next hx =>
      rw [List.mem_cons, ih, hrest]
      constructor
      · rintro (h | ⟨i, text, h1, h2, h3⟩)
        · exact ⟨0, x, by simp, hx, by omega⟩
        · exact ⟨i + 1, text, h1, h2, h3⟩
      · rintro ⟨i, text, h1, h2, h3⟩
        cases i with
        | zero => exact Or.inl (by omega)
        | succ i => exact Or.inr ⟨i, text, h1, h2, h3⟩
    · next hx =>
      rw [ih, hrest]
      constructor
      · rintro ⟨i, text, h1, h2, h3⟩
        exact ⟨i + 1, text, h1, h2, h3⟩
      · rintro ⟨i, text, h1, h2, h3⟩
        cases i with
        | zero =>
          simp at h1
          subst h1
          exact absurd h2 hx
        | succ i => exact ⟨i, text, h1, h2, h3⟩

theorem markerLinesFrom_increasing (c : Nat) (lines : List String) :
    List.Pairwise (fun a b => a < b) (markerLinesFrom c lines) := by
  induction lines generalizing c with
  | nil => exact List.Pairwise.nil
  | cons x rest ih =>
    unfold markerLinesFrom
    split
    · refine List.Pairwise.cons ?_ (ih _)
      intro m hm
      obtain ⟨i, _, _, _, h⟩ := (mem_markerLinesFrom _ _ _).mp hm
      omega
    · exact ih _

/-- The end lines of the records closed by the scanner loop are the line
numbers of the marker lines. -/
theorem scanLoop_EndLines (filePath : String) (lines : List String) (st : ScanState) :
    (scanLoop filePath st lines).iacDocumentList.map IacDocument.EndLine =
      st.iacDocumentList.map IacDocument.EndLine ++
        markerLinesFrom st.currentLineNumber lines := by
  induction lines generalizing st with
  | nil => simp [scanLoop_nil, markerLinesFrom]
  | cons text rest ih =>
    rw [scanLoop_cons, ih, markerLinesFrom_cons]
    unfold scanStep
    split <;> simp

theorem firstPass_EndLines (filePath : String) (lines : List String) :
    (firstPass filePath lines).map IacDocument.EndLine =
      markerLines lines ++ [lines.length + 1] := by
  unfold firstPass markerLines
  simp [scanLoop_EndLines, scanLoop_currentLineNumber, Nat.add_comm]

/-- The scanner loop keeps every closed range non-inverted, and keeps the start
of the open range at or below the line counter. -/
theorem scanLoop_ordered (filePath : String) (lines : List String) (st : ScanState)
    (hst : st.startLineNumber ≤ st.currentLineNumber)
    (hdocs : ∀ d ∈ st.iacDocumentList, d.StartLine ≤ d.EndLine) :
    (scanLoop filePath st lines).startLineNumber ≤
        (scanLoop filePath st lines).currentLineNumber ∧
      ∀ d ∈ (scanLoop filePath st lines).iacDocumentList, d.StartLine ≤ d.EndLine := by
  induction lines generalizing st with
  | nil => exact ⟨hst, hdocs⟩
  | cons text rest ih =>
    rw [scanLoop_cons]
    apply ih
    · unfold scanStep
      split
      · exact le_refl _
      · exact Nat.le_succ_of_le hst
    · unfold scanStep
      split
      · intro d hd
        rcases List.mem_append.mp hd with hd | hd
        · exact hdocs d hd
        · rw [List.mem_singleton] at hd
          subst hd
          exact hst
      · exact hdocs

theorem firstPass_ordered (filePath : String) (lines : List String) :
    ∀ d ∈ firstPass filePath lines, d.StartLine ≤ d.EndLine := by
  intro d hd
  have h := scanLoop_ordered filePath lines
    { iacDocumentList := [], startLineNumber := 1, currentLineNumber := 1 }
    (le_refl _) (by simp)
  unfold firstPass at hd
  rcases List.mem_append.mp hd with hd | hd
  · exact h.2 d hd
  · rw [List.mem_singleton] at hd
    subst hd
    exact h.1

/-- In a chain of non-inverted ranges starting at `s`, no range starts below
`s`. -/
theorem Linked_lower (s t : Nat) (docs : List IacDocument) (h : Linked s docs t)
    (hord : ∀ d ∈ docs, d.StartLine ≤ d.EndLine) :
    ∀ d ∈ docs, s ≤ d.StartLine := by
  induction docs generalizing s with
  | nil => simp
  | cons x xs ih =>
    intro d hd
    have hx := hord x (List.mem_cons_self _ _)
    rcases List.mem_cons.mp hd with hd | hd
    · subst hd
      exact le_of_eq h.1.symm
    · have := ih _ h.2 (fun d hd => hord d (List.mem_cons_of_mem _ hd)) d hd
      have := h.1
      omega

/-- In a chain of non-inverted ranges, an earlier range ends before a later one
starts. -/
theorem Linked_disjoint (s t : Nat) (docs : List IacDocument) (h : Linked s docs t)
    (hord : ∀ d ∈ docs, d.StartLine ≤ d.EndLine) (i j : Nat) (a b : IacDocument)
    (hij : i < j) (ha : docs[i]? = some a) (hb : docs[j]? = some b) :
    a.EndLine < b.StartLine := by
  induction docs generalizing s i j with
  | nil => simp at ha
  | cons x xs ih =>
    have hxs : ∀ d ∈ xs, d.StartLine ≤ d.EndLine :=
      fun d hd => hord d (List.mem_cons_of_mem _ hd)
    cases j with
    | zero => omega
    | succ j =>
      simp only [List.getElem?_cons_succ] at hb
      cases i with
      | zero =>
        simp at ha
        subst ha
        have := Linked_lower _ _ _ h.2 hxs b (List.mem_iff_getElem?.mpr ⟨j, hb⟩)
        omega
      | succ i =>
        simp only [List.getElem?_cons_succ] at ha
        exact ih _ h.2 hxs i j (by omega) ha hb

/-- A chain of non-inverted ranges from `s` to `t` covers exactly the line
numbers from `s` up to `t` (excluded). -/
theorem Linked_cover (s t : Nat) (docs : List IacDocument) (h : Linked s docs t)
    (hord : ∀ d ∈ docs, d.StartLine ≤ d.EndLine) :
    s ≤ t ∧ ∀ l, (∃ d ∈ docs, d.StartLine ≤ l ∧ l ≤ d.EndLine) ↔ (s ≤ l ∧ l < t) := by
  induction docs generalizing s with
  | nil =>
    simp only [Linked] at h
    subst h
    refine ⟨le_refl _, fun l => ?_⟩
    simp
  | cons x xs ih =>
    have hx := hord x (List.mem_cons_self _ _)
    obtain ⟨hle, hcov⟩ := ih _ h.2 (fun d hd => hord d (List.mem_cons_of_mem _ hd))
    have hs := h.1
    refine ⟨by omega, fun l => ?_⟩
    constructor
    · rintro ⟨d, hd, h1, h2⟩
      rcases List.mem_cons.mp hd with hd | hd
      · subst hd
        omega
      · have := (hcov l).mp ⟨d, hd, h1, h2⟩
        omega
    · rintro ⟨h1, h2⟩
      by_cases hl : l ≤ x.EndLine
      · exact ⟨x, List.mem_cons_self _ _, by omega, hl⟩
      · obtain ⟨d, hd, h3, h4⟩ := (hcov l).mpr ⟨by omega, h2⟩
        exact ⟨d, List.mem_cons_of_mem _ hd, h3, h4⟩

/-- The scanner loop only appends to the record list. -/
theorem scanLoop_keeps_prefix (filePath : String) (lines : List String) (st : ScanState) :
    ∃ more, (scanLoop filePath st lines).iacDocumentList = st.iacDocumentList ++ more := by
  induction lines generalizing st with
  | nil => exact ⟨[], by simp [scanLoop_nil]⟩
  | cons text rest ih =>
    rw [scanLoop_cons]
    obtain ⟨more, hmore⟩ := ih (scanStep filePath st text)
    rw [hmore]
    unfold scanStep
    split
    · exact ⟨{ DocType := YAMLDoc, StartLine := st.startLineNumber,
                EndLine := st.currentLineNumber, FilePath := filePath,
                Data := none } :: more, by simp⟩
    · exact ⟨more, rfl⟩

/-- When the first line is a marker line, the first record of the scan covers
line 1 only. -/
theorem firstPass_leading_marker (filePath : String) (text : String)
    (rest : List String) (hmark : HasPrefix text "---" = true) :
    (firstPass filePath (text :: rest))[0]? =
      some ⟨YAMLDoc, 1, 1, filePath, none⟩ := by
  unfold firstPass
  rw [scanLoop_cons]
  obtain ⟨more, hmore⟩ := scanLoop_keeps_prefix filePath rest
    (scanStep filePath
      { iacDocumentList := [], startLineNumber := 1, currentLineNumber := 1 } text)
  simp only [hmore]
  simp [scanStep, hmark]

/-! ## The second pass -/

theorem getElem?_setData_ne (docs : List IacDocument) (i j : Nat) (b : Bytes)
    (h : i ≠ j) : (setData docs i b)[j]? = docs[j]? := by
  unfold setData
  split
  · exact List.getElem?_set_ne h
  · rfl

theorem getElem?_setData_self (docs : List IacDocument) (i : Nat) (b : Bytes)
    (d : IacDocument) (h : docs[i]? = some d) :
    (setData docs i b)[i]? = some { d with Data := some b } := by
  unfold setData
  rw [h]
  have hlt : i < docs.length := by
    by_contra hge
    rw [List.getElem?_eq_none (by omega)] at h
    cases h
  simp [List.getElem?_set_self hlt]

theorem map_stripData_setData (docs : List IacDocument) (i : Nat) (b : Bytes) :
    (setData docs i b).map stripData = docs.map stripData := by
  apply List.ext_getElem?
  intro j
  simp only [List.getElem?_map]
  by_cases hij : i = j
  · subst hij
    cases hd : docs[i]? with
    | none =>
      unfold setData
      simp [hd]
    | some d =>
      rw [getElem?_setData_self docs i b d hd]
      rfl
  · rw [getElem?_setData_ne docs i j b hij]

theorem decodeLoop_eof {V : Type} (decode : Nat → DecodeResult V)
    (marshal : V → Except ExtError Bytes) (docs : List IacDocument) (i : Nat)
    (h : decode i = .eof) : decodeLoop decode marshal docs i = (docs, none) := by
  rw [decodeLoop]
  simp [h]

theorem decodeLoop_fail {V : Type} (decode : Nat → DecodeResult V)
    (marshal : V → Except ExtError Bytes) (docs : List IacDocument) (i : Nat)
    (e : ExtError) (h : decode i = .fail e) :
    decodeLoop decode marshal docs i = (docs, some (.external e)) := by
  rw [decodeLoop]
  simp [h]

theorem decodeLoop_high {V : Type} (decode : Nat → DecodeResult V)
    (marshal : V → Except ExtError Bytes) (docs : List IacDocument) (i : Nat)
    (v : V) (h : decode i = .value v) (hi : docs.length ≤ i) :
    decodeLoop decode marshal docs i = (docs, some .errHighDocumentCount) := by
  rw [decodeLoop]
  have hgt : (i : Int) > (docs.length : Int) - 1 := by omega
  simp [h, hgt]

theorem decodeLoop_marshal_error {V : Type} (decode : Nat → DecodeResult V)
    (marshal : V → Except ExtError Bytes) (docs : List IacDocument) (i : Nat)
    (v : V) (e : ExtError) (h : decode i = .value v) (hi : i < docs.length)
    (hm : marshal v = .error e) :
    decodeLoop decode marshal docs i = (docs, some (.external e)) := by
  rw [decodeLoop]
  have hgt : ¬ ((i : Int) > (docs.length : Int) - 1) := by omega
  simp [h, hgt, hm]

theorem decodeLoop_step {V : Type} (decode : Nat → DecodeResult V)
    (marshal : V → Except ExtError Bytes) (docs : List IacDocument) (i : Nat)
    (v : V) (b : Bytes) (h : decode i = .value v) (hi : i < docs.length)
    (hm : marshal v = .ok b) :
    decodeLoop decode marshal docs i =
      decodeLoop decode marshal (setData docs i b) (i + 1) := by
  rw [decodeLoop]
  have hgt : ¬ ((i : Int) > (docs.length : Int) - 1) := by omega
  simp [h, hgt, hm]

/-- The second pass never changes anything but `Data`. -/
theorem decodeLoop_map_stripData {V : Type} (decode : Nat → DecodeResult V)
    (marshal : V → Except ExtError Bytes) (docs : List IacDocument) (i : Nat) :
    (decodeLoop decode marshal docs i).1.map stripData = docs.map stripData := by
  induction docs, i using decodeLoop.induct decode marshal with
  | case1 docs i h => rw [decodeLoop_eof _ _ _ _ h]
  | case2 docs i e h => rw [decodeLoop_fail _ _ _ _ e h]
  | case3 docs i v h hi => rw [decodeLoop_high _ _ _ _ v h (by omega)]
  | case4 docs i v h hi e hm => rw [decodeLoop_marshal_error _ _ _ _ v e h (by omega) hm]
  | case5 docs i v h hi b hm ih =>
    rw [decodeLoop_step _ _ _ _ v b h (by omega) hm, ih, map_stripData_setData]

/-- Complete description of a run of the second-pass loop entered at index `i`:
it leaves at some index `s`; every position from `i` up to `s` (excluded) is
inside the list and receives the re-encoding of the document decoded at that
position; every other position is left as it was; and the error is the one of
the reason for leaving at `s`. -/
theorem decodeLoop_spec {V : Type} (decode : Nat → DecodeResult V)
    (marshal : V → Except ExtError Bytes) (docs : List IacDocument) (i : Nat) :
    ∃ s, i ≤ s ∧
      (∀ j, i ≤ j → j < s → ∃ d v b, docs[j]? = some d ∧ decode j = .value v ∧
        marshal v = .ok b ∧
        (decodeLoop decode marshal docs i).1[j]? = some { d with Data := some b }) ∧
      (∀ j, j < i ∨ s ≤ j → (decodeLoop decode marshal docs i).1[j]? = docs[j]?) ∧
      StopsAt decode marshal docs.length s (decodeLoop decode marshal docs i).2 := by
  induction docs, i using decodeLoop.induct decode marshal with
  | case1 docs i h =>
    rw [decodeLoop_eof _ _ _ _ h]
    exact ⟨i, le_refl _, fun j h1 h2 => absurd h2 (by omega), fun _ _ => rfl,
      by simp [StopsAt, h]⟩
  | case2 docs i e h =>
    rw [decodeLoop_fail _ _ _ _ e h]
    exact ⟨i, le_refl _, fun j h1 h2 => absurd h2 (by omega), fun _ _ => rfl,
      by simp [StopsAt, h]⟩
  | case3 docs i v h hi =>
    rw [decodeLoop_high _ _ _ _ v h (by omega)]
    have hle : docs.length ≤ i := by omega
    exact ⟨i, le_refl _, fun j h1 h2 => absurd h2 (by omega), fun _ _ => rfl,
      by simp [StopsAt, h, hle]⟩
  | case4 docs i v h hi e hm =>
    rw [decodeLoop_marshal_error _ _ _ _ v e h (by omega) hm]
    have hlt : ¬ docs.length ≤ i := by omega
    exact ⟨i, le_refl _, fun j h1 h2 => absurd h2 (by omega), fun _ _ => rfl,
      by simp [StopsAt, h, hlt, hm]⟩
  | case5 docs i v h hi b hm ih =>
    have hlt : i < docs.length := by omega
    rw [decodeLoop_step _ _ _ _ v b h hlt hm]
    obtain ⟨s, his, hfill, hkeep, hstop⟩ := ih
    refine ⟨s, by omega, ?_, ?_, ?_⟩
    · intro j hij hjs
      by_cases hji : j = i
      · subst hji
        have hd : docs[j]? = some docs[j] := List.getElem?_eq_getElem hlt
        refine ⟨docs[j], v, b, hd, h, hm, ?_⟩
        rw [hkeep j (Or.inl (by omega))]
        exact getElem?_setData_self docs j b _ hd
      · obtain ⟨d, v1, b1, hd, hv, hb, hout⟩ := hfill j (by omega) hjs
        rw [getElem?_setData_ne docs i j b (by omega)] at hd
        exact ⟨d, v1, b1, hd, hv, hb, hout⟩
    · intro j hj
      rw [hkeep j (by omega)]
      exact getElem?_setData_ne docs i j b (by omega)
    · rw [length_setData] at hstop
      exact hstop

/-- The loop only looks at the decoder outcomes of the calls numbered `i` to
the length of the list: two decoders that agree there give the same run. -/
theorem decodeLoop_congr {V : Type} (decode other : Nat → DecodeResult V)
    (marshal : V → Except ExtError Bytes) (docs : List IacDocument) (i : Nat)
    (hi : i ≤ docs.length)
    (hsame : ∀ j, i ≤ j → j ≤ docs.length → other j = decode j) :
    decodeLoop other marshal docs i = decodeLoop decode marshal docs i := by
  induction docs, i using decodeLoop.induct decode marshal with
  | case1 docs i h =>
    rw [decodeLoop_eof _ _ _ _ h,
      decodeLoop_eof _ _ _ _ ((hsame i (le_refl _) hi).trans h)]
  | case2 docs i e h =>
    rw [decodeLoop_fail _ _ _ _ e h,
      decodeLoop_fail _ _ _ _ e ((hsame i (le_refl _) hi).trans h)]
  | case3 docs i v h hgt =>
    rw [decodeLoop_high _ _ _ _ v h (by omega),
      decodeLoop_high _ _ _ _ v ((hsame i (le_refl _) hi).trans h) (by omega)]
  | case4 docs i v h hgt e hm =>
    rw [decodeLoop_marshal_error _ _ _ _ v e h (by omega) hm,
      decodeLoop_marshal_error _ _ _ _ v e ((hsame i (le_refl _) hi).trans h)
        (by omega) hm]
  | case5 docs i v h hgt b hm ih =>
    have hlt : i < docs.length := by omega
    rw [decodeLoop_step _ _ _ _ v b h hlt hm,
      decodeLoop_step _ _ _ _ v b ((hsame i (le_refl _) hi).trans h) hlt hm]
    apply ih
    · rw [length_setData]
      omega
    · intro j hj1 hj2
      rw [length_setData] at hj2
      exact hsame j (by omega) hj2

theorem decodeSteps_stop {V : Type} (decode : Nat → DecodeResult V)
    (marshal : V → Except ExtError Bytes) (docs : List IacDocument) (i : Nat)
    (counts : Nat × Nat)
    (h : match decode i with
      | .value v => (i : Int) > (docs.length : Int) - 1 ∨ ∃ e, marshal v = .error e
      | _ => True)
    (hc : counts = (1, 0)) :
    decodeSteps decode marshal docs i = counts := by
  subst hc
  rw [decodeSteps]
  split
  · rfl
  · rfl
  · next v hv =>
    rw [hv] at h
    simp only at h
    split
    · rfl
    · next hgt =>
      rcases h with h | ⟨e, he⟩
      · exact absurd h hgt
      · rw [he]

theorem decodeSteps_step {V : Type} (decode : Nat → DecodeResult V)
    (marshal : V → Except ExtError Bytes) (docs : List IacDocument) (i : Nat)
    (v : V) (b : Bytes) (h : decode i = .value v) (hi : i < docs.length)
    (hm : marshal v = .ok b) :
    decodeSteps decode marshal docs i =
      ((decodeSteps decode marshal (setData docs i b) (i + 1)).1 + 1,
       (decodeSteps decode marshal (setData docs i b) (i + 1)).2 + 1) := by
  rw [decodeSteps]
  have hgt : ¬ ((i : Int) > (docs.length : Int) - 1) := by omega
  simp [h, hgt, hm]

/-- What the two counters of a run entered at index `i` say: one call more
than assignments; the assignments fit between `i` and the end of the list;
and the run leaves at the index `i` plus the number of assignments. -/
theorem decodeSteps_spec {V : Type} (decode : Nat → DecodeResult V)
    (marshal : V → Except ExtError Bytes) (docs : List IacDocument) (i : Nat) :
    (decodeSteps decode marshal docs i).1 = (decodeSteps decode marshal docs i).2 + 1 ∧
      (decodeSteps decode marshal docs i).2 ≤ docs.length - i ∧
      StopsAt decode marshal docs.length (i + (decodeSteps decode marshal docs i).2)
        (decodeLoop decode marshal docs i).2 := by
  induction docs, i using decodeLoop.induct decode marshal with
  | case1 docs i h =>
    rw [decodeSteps_stop decode marshal docs i (1, 0) (by simp [h]) rfl,
      decodeLoop_eof _ _ _ _ h]
    exact ⟨rfl, Nat.zero_le _, by simp [StopsAt, h]⟩
  | case2 docs i e h =>
    rw [decodeSteps_stop decode marshal docs i (1, 0) (by simp [h]) rfl,
      decodeLoop_fail _ _ _ _ e h]
    exact ⟨rfl, Nat.zero_le _, by simp [StopsAt, h]⟩
  | case3 docs i v h hgt =>
    rw [decodeSteps_stop decode marshal docs i (1, 0) (by simp [h, hgt]) rfl,
      decodeLoop_high _ _ _ _ v h (by omega)]
    have hle : docs.length ≤ i := by omega
    exact ⟨rfl, Nat.zero_le _, by simp [StopsAt, h, hle]⟩
  | case4 docs i v h hgt e hm =>
    rw [decodeSteps_stop decode marshal docs i (1, 0) (by simp [h, hm]) rfl,
      decodeLoop_marshal_error _ _ _ _ v e h (by omega) hm]
    have hlt : ¬ docs.length ≤ i := by omega
    exact ⟨rfl, Nat.zero_le _, by simp [StopsAt, h, hlt, hm]⟩
  | case5 docs i v h hgt b hm ih =>
    have hlt : i < docs.length := by omega
    rw [decodeSteps_step _ _ _ _ v b h hlt hm, decodeLoop_step _ _ _ _ v b h hlt hm]
    obtain ⟨h1, h2, h3⟩ := ih
    rw [length_setData] at h2 h3
    refine ⟨by simp only; omega, by simp only; omega, ?_⟩
    have hidx : i + ((decodeSteps decode marshal (setData docs i b) (i + 1)).2 + 1) =
        i + 1 + (decodeSteps decode marshal (setData docs i b) (i + 1)).2 := by omega
    simp only [hidx]
    exact h3

/-! ## The whole function -/

theorem LoadYAML_second_pass {V : Type} (w : FileView V) (filePath : String)
    (hopen : w.openErr = none) (hscan : w.scanErr = none) (hread : w.readErr = none) :
    LoadYAML w filePath =
      decodeLoop w.decode w.marshal (firstPass filePath w.lines) 0 := by
  simp [LoadYAML, hopen, hscan, hread]

theorem LoadYAML_map_stripData {V : Type} (w : FileView V) (filePath : String)
    (hopen : w.openErr = none) :
    (LoadYAML w filePath).1.map stripData =
      (firstPass filePath w.lines).map stripData := by
  unfold LoadYAML
  rw [hopen]
  cases w.scanErr with
  | some e => rfl
  | none =>
    cases w.readErr with
    | some e => rfl
    | none => exact decodeLoop_map_stripData _ _ _ _

theorem LoadYAML_length {V : Type} (w : FileView V) (filePath : String)
    (hopen : w.openErr = none) :
    (LoadYAML w filePath).1.length = countMarkers w.lines + 1 := by
  have h := congrArg List.length (LoadYAML_map_stripData w filePath hopen)
  simpa [firstPass_length] using h

theorem LoadYAML_linked {V : Type} (w : FileView V) (filePath : String)
    (hopen : w.openErr = none) :
    Linked 1 (LoadYAML w filePath).1 (w.lines.length + 2) :=
  Linked_of_map_stripData _ _ _ _ (LoadYAML_map_stripData w filePath hopen)
    (firstPass_linked filePath w.lines)

theorem firstPass_data_none (filePath : String) (lines : List String) (j : Nat)
    (d : IacDocument) (h : (firstPass filePath lines)[j]? = some d) : d.Data = none :=
  (firstPass_fields filePath lines d (List.mem_iff_getElem?.mpr ⟨j, h⟩)).2.2

/-- Position by position description of the list `LoadYAML` returns for a file
that could be opened.  There is an index `s` (the number of documents
stored) such that every position below `s` holds the record of the first pass
with the re-encoding of the document decoded at that position as content,
and every position from `s` on holds the record of the first pass unchanged.
Either the second-pass loop was not reached (`s = 0`, with an error), or it
was left at index `s` for the reason `StopsAt` tells. -/
theorem LoadYAML_positions {V : Type} (w : FileView V) (filePath : String)
    (hopen : w.openErr = none) :
    ∃ s,
      (∀ j, j < s → ∃ d v b, (firstPass filePath w.lines)[j]? = some d ∧
        w.decode j = .value v ∧ w.marshal v = .ok b ∧
        (LoadYAML w filePath).1[j]? = some { d with Data := some b }) ∧
      (∀ j, s ≤ j → (LoadYAML w filePath).1[j]? = (firstPass filePath w.lines)[j]?) ∧
      (((w.scanErr ≠ none ∨ w.readErr ≠ none) ∧ s = 0 ∧ (LoadYAML w filePath).2 ≠ none) ∨
        (w.scanErr = none ∧ w.readErr = none ∧
          StopsAt w.decode w.marshal (firstPass filePath w.lines).length s
            (LoadYAML w filePath).2)) := by
  cases hscan : w.scanErr with
  | some e =>
    refine ⟨0, fun j hj => absurd hj (by omega), fun j _ => ?_, Or.inl ⟨by simp, rfl, ?_⟩⟩
    · simp [LoadYAML, hopen, hscan]
    · simp [LoadYAML, hopen, hscan]
  | none =>
    cases hread : w.readErr with
    | some e =>
      refine ⟨0, fun j hj => absurd hj (by omega), fun j _ => ?_, Or.inl ⟨by simp, rfl, ?_⟩⟩
      · simp [LoadYAML, hopen, hscan, hread]
      · simp [LoadYAML, hopen, hscan, hread]
    | none =>
      rw [LoadYAML_second_pass w filePath hopen hscan hread]
      obtain ⟨s, _, hfill, hkeep, hstop⟩ :=
        decodeLoop_spec w.decode w.marshal (firstPass filePath w.lines) 0
      exact ⟨s, fun j hj => hfill j (by omega) hj, fun j hj => hkeep j (Or.inr hj),
        Or.inr ⟨rfl, rfl, hstop⟩⟩

theorem LoadYAML_EndLines {V : Type} (w : FileView V) (filePath : String)
    (hopen : w.openErr = none) :
    (LoadYAML w filePath).1.map IacDocument.EndLine =
      markerLines w.lines ++ [w.lines.length + 1] := by
  have h := congrArg (List.map IacDocument.EndLine)
    (LoadYAML_map_stripData w filePath hopen)
  simp only [List.map_map] at h
  have hcomp : IacDocument.EndLine ∘ stripData = IacDocument.EndLine := rfl
  rw [hcomp] at h
  rw [h, firstPass_EndLines]

/-- Record by record, the returned list is the list of the first pass up to
`Data`. -/
theorem LoadYAML_getElem?_frame {V : Type} (w : FileView V) (filePath : String)
    (hopen : w.openErr = none) (i : Nat) (b : IacDocument)
    (hb : (firstPass filePath w.lines)[i]? = some b) :
    ∃ a, (LoadYAML w filePath).1[i]? = some a ∧ a = { b with Data := a.Data } := by
  have h := congrArg (fun l : List IacDocument => l[i]?)
    (LoadYAML_map_stripData w filePath hopen)
  simp only [List.getElem?_map, hb, Option.map_some'] at h
  cases ha : (LoadYAML w filePath).1[i]? with
  | none =>
    rw [ha] at h
    cases h
  | some a =>
    rw [ha] at h
    simp only [Option.map_some', Option.some.injEq] at h
    refine ⟨a, rfl, ?_⟩
    cases a
    cases b
    simp only [stripData, IacDocument.mk.injEq] at h
    simp only [IacDocument.mk.injEq]
    exact ⟨h.1, h.2.1, h.2.2.1, h.2.2.2.1, trivial⟩

theorem singleDocView_result (filePath : String) :
    LoadYAML singleDocView filePath =
      ([⟨"yaml", 1, 2, filePath, some [97, 58, 32, 49, 10]⟩], none) := by
  simp [LoadYAML, singleDocView, firstPass, scanLoop, scanStep, HasPrefix, decodeLoop,
    setData, sampleMarshal, docA, YAMLDoc]

theorem scenarioView_result (filePath : String) :
    LoadYAML scenarioView filePath =
      ([⟨"yaml", 1, 2, filePath, some [97, 58, 32, 49, 10]⟩,
        ⟨"yaml", 3, 4, filePath, some [98, 58, 32, 50, 10]⟩,
        ⟨"yaml", 5, 5, filePath, some [110, 117, 108, 108, 10]⟩], none) := by
  simp [LoadYAML, scenarioView, firstPass, scanLoop, scanStep, HasPrefix, decodeLoop,
    setData, sampleMarshal, docA, docB, YAMLDoc]

/-! ## The claims -/

/-- C1 (boundary count).  For a file that can be opened, if exactly `k` of
its scanned lines begin with `---`, then `LoadYAML` returns exactly `k + 1`
records.  This holds for every outcome of the second pass, so in particular
whenever decoding succeeds, whatever the lines contain and however many
documents the decoder yields. -/
theorem LoadYAML_boundary_count {V : Type} (w : FileView V) (filePath : String)
    (k : Nat) (hopen : w.openErr = none) (hk : countMarkers w.lines = k) :
    (LoadYAML w filePath).1.length = k + 1 := by
  rw [← hk]
  exact LoadYAML_length w filePath hopen

theorem LoadYAML_boundary_count_witness :
    scenarioView.openErr = none ∧ countMarkers scenarioView.lines = 2 ∧
      (LoadYAML scenarioView "k8s.yaml").2 = none ∧
      (LoadYAML scenarioView "k8s.yaml").1.length = 2 + 1 :=
  ⟨rfl, by decide, by rw [scenarioView_result],
    LoadYAML_boundary_count scenarioView "k8s.yaml" 2 rfl (by decide)⟩

/-- C2 (contiguity).  For a file that could be opened, the first returned
record starts at line 1, and for every adjacent pair of returned records the
end line of the first plus one is the start line of the second.  No
assumption is made on the outcome: success and every error return after the
scan are covered. -/
theorem LoadYAML_contiguous {V : Type} (w : FileView V) (filePath : String)
    (hopen : w.openErr = none) :
    (∃ d, (LoadYAML w filePath).1[0]? = some d ∧ d.StartLine = 1) ∧
      ∀ (i : Nat) (a b : IacDocument),
        (LoadYAML w filePath).1[i]? = some a →
        (LoadYAML w filePath).1[i + 1]? = some b →
        a.EndLine + 1 = b.StartLine := by
  have hlinked := LoadYAML_linked w filePath hopen
  have hlen := LoadYAML_length w filePath hopen
  refine ⟨?_, fun i a b ha hb => Linked_adjacent _ _ _ i a b hlinked ha hb⟩
  have h0 : 0 < (LoadYAML w filePath).1.length := by omega
  exact ⟨_, List.getElem?_eq_getElem h0, Linked_head _ _ _ _ hlinked (List.getElem?_eq_getElem h0)⟩

theorem LoadYAML_contiguous_witness :
    scenarioView.openErr = none ∧
      ((∃ d, (LoadYAML scenarioView "k8s.yaml").1[0]? = some d ∧ d.StartLine = 1) ∧
        ∀ (i : Nat) (a b : IacDocument),
          (LoadYAML scenarioView "k8s.yaml").1[i]? = some a →
          (LoadYAML scenarioView "k8s.yaml").1[i + 1]? = some b →
          a.EndLine + 1 = b.StartLine) :=
  ⟨rfl, LoadYAML_contiguous scenarioView "k8s.yaml" rfl⟩

/-- C3, as amended.  For a file that could be opened and has `n` scanned
lines, the end line of the last record returned by `LoadYAML` is `n + 1`: the
final value of the line counter, which starts at 1 and is incremented once per
scanned line. -/
theorem LoadYAML_last_EndLine {V : Type} (w : FileView V) (filePath : String)
    (hopen : w.openErr = none) :
    ∃ d, (LoadYAML w filePath).1.getLast? = some d ∧ d.EndLine = w.lines.length + 1 := by
  have hlinked := LoadYAML_linked w filePath hopen
  have hlen := LoadYAML_length w filePath hopen
  cases hl : (LoadYAML w filePath).1.getLast? with
  | none =>
    rw [List.getLast?_eq_none_iff] at hl
    rw [hl] at hlen
    simp at hlen
  | some d =>
    have := Linked_last _ _ _ d hlinked hl
    exact ⟨d, rfl, by omega⟩

theorem LoadYAML_last_EndLine_witness :
    singleDocView.openErr = none ∧
      ∃ d, (LoadYAML singleDocView "k8s.yaml").1.getLast? = some d ∧
        d.EndLine = singleDocView.lines.length + 1 :=
  ⟨rfl, LoadYAML_last_EndLine singleDocView "k8s.yaml" rfl⟩

/-- C3, counterexample.  The one-line file `a: 1` loads without error into one
record whose end line is 2, not the line count 1. -/
theorem single_line_file_EndLine_two :
    singleDocView.lines.length = 1 ∧
      (LoadYAML singleDocView "k8s.yaml").2 = none ∧
      ∃ d, (LoadYAML singleDocView "k8s.yaml").1.getLast? = some d ∧
        d.EndLine = 2 ∧ d.EndLine ≠ singleDocView.lines.length := by
  rw [singleDocView_result]
  exact ⟨rfl, rfl, _, rfl, rfl, by decide⟩

/-- C4 (positional pairing on success).  If the second pass is reached, the
scan produced `r` records, and the decoder yields exactly `d ≤ r` documents
`vs 0`, ..., `vs (d - 1)` followed by the end of the stream, each of which
re-encodes without error to `bs i`, then `LoadYAML` returns no error, the
content of record `i` is `bs i` for every `i < d`, and the content of record
`i` is unset for every `i` with `d ≤ i < r`. -/
theorem LoadYAML_positional_pairing {V : Type} (w : FileView V) (filePath : String)
    (r d : Nat) (vs : Nat → V) (bs : Nat → Bytes)
    (hopen : w.openErr = none) (hscan : w.scanErr = none) (hread : w.readErr = none)
    (hr : (firstPass filePath w.lines).length = r) (hd : d ≤ r)
    (hdec : ∀ i, i < d → w.decode i = .value (vs i))
    (henc : ∀ i, i < d → w.marshal (vs i) = .ok (bs i))
    (heof : w.decode d = .eof) :
    (LoadYAML w filePath).2 = none ∧
      (∀ i, i < d → ∃ doc, (LoadYAML w filePath).1[i]? = some doc ∧
        doc.Data = some (bs i)) ∧
      (∀ i, d ≤ i → i < r → ∃ doc, (LoadYAML w filePath).1[i]? = some doc ∧
        doc.Data = none) := by
  obtain ⟨s, hfill, hkeep, hcase⟩ := LoadYAML_positions w filePath hopen
  rcases hcase with ⟨hbad, _, _⟩ | ⟨_, _, hstop⟩
  · rcases hbad with h | h
    · exact absurd hscan h
    · exact absurd hread h
  have hsd : s = d := by
    rcases Nat.lt_trichotomy s d with hlt | heq | hgt
    · exfalso
      have hlen : ¬ (firstPass filePath w.lines).length ≤ s := by omega
      simp [StopsAt, hdec s hlt, hlen, henc s hlt] at hstop
    · exact heq
    · obtain ⟨_, v, _, _, hv, _, _⟩ := hfill d hgt
      rw [heof] at hv
      cases hv
  subst hsd
  refine ⟨by simpa [StopsAt, heof] using hstop, ?_, ?_⟩
  · intro i hi
    obtain ⟨d0, v, b, _, hv, hb, hout⟩ := hfill i hi
    rw [hdec i hi] at hv
    cases hv
    rw [henc i hi] at hb
    cases hb
    exact ⟨_, hout, rfl⟩
  · intro i hi hir
    have hlt : i < (firstPass filePath w.lines).length := by omega
    refine ⟨(firstPass filePath w.lines)[i], ?_, ?_⟩
    · rw [hkeep i hi]
      exact List.getElem?_eq_getElem hlt
    · exact firstPass_data_none filePath w.lines i _ (List.getElem?_eq_getElem hlt)

theorem LoadYAML_positional_pairing_witness :
    (LoadYAML shortView "k8s.yaml").2 = none ∧
      (∀ i, i < 1 → ∃ doc, (LoadYAML shortView "k8s.yaml").1[i]? = some doc ∧
        doc.Data = some [97, 58, 32, 49, 10]) ∧
      (∀ i, 1 ≤ i → i < 2 → ∃ doc, (LoadYAML shortView "k8s.yaml").1[i]? = some doc ∧
        doc.Data = none) :=
  LoadYAML_positional_pairing shortView "k8s.yaml" 2 1 (fun _ => docA)
    (fun _ => [97, 58, 32, 49, 10]) rfl rfl rfl (by decide) (by decide)
    (by decide) (fun _ _ => rfl) rfl

/-- C5 (document-count overflow).  When the second pass is reached with `r`
records from the scan, `LoadYAML` returns `errHighDocumentCount` if and only
if the decoder successfully decodes the documents at positions `0` to `r`
(that is `r + 1` documents) and the first `r` of them re-encode without
error.  In that case the `r` records are all returned, and record `i` holds
the re-encoding of document `i`, for every `i < r`. -/
theorem LoadYAML_errHighDocumentCount_iff {V : Type} (w : FileView V)
    (filePath : String) (r : Nat)
    (hopen : w.openErr = none) (hscan : w.scanErr = none) (hread : w.readErr = none)
    (hr : (firstPass filePath w.lines).length = r) :
    ((LoadYAML w filePath).2 = some .errHighDocumentCount ↔
        ((∀ i, i ≤ r → ∃ v, w.decode i = .value v) ∧
          (∀ i, i < r → ∀ v, w.decode i = .value v → ∃ b, w.marshal v = .ok b))) ∧
      ((LoadYAML w filePath).2 = some .errHighDocumentCount →
        (LoadYAML w filePath).1.length = r ∧
        ∀ i, i < r → ∃ doc v b, (LoadYAML w filePath).1[i]? = some doc ∧
          w.decode i = .value v ∧ w.marshal v = .ok b ∧ doc.Data = some b) := by
  obtain ⟨s, hfill, hkeep, hcase⟩ := LoadYAML_positions w filePath hopen
  rcases hcase with ⟨hbad, _, _⟩ | ⟨_, _, hstop⟩
  · rcases hbad with h | h
    · exact absurd hscan h
    · exact absurd hread h
  have hsr : s ≤ r := by
    by_contra hgt
    obtain ⟨d0, _, _, hd0, _, _, _⟩ := hfill r (by omega)
    rw [List.getElem?_eq_none (by omega)] at hd0
    cases hd0
  have hhigh : (LoadYAML w filePath).2 = some .errHighDocumentCount →
      s = r ∧ ∃ v, w.decode r = .value v := by
    intro herr
    rw [herr] at hstop
    unfold StopsAt at hstop
    split at hstop
    · cases hstop
    · cases hstop
    · next v hv =>
      split at hstop
      · have : s = r := by omega
        subst this
        exact ⟨rfl, v, hv⟩
      · split at hstop
        · cases hstop
        · exact absurd hstop id
  have hlen : (LoadYAML w filePath).1.length = r := by
    have h := congrArg List.length (LoadYAML_map_stripData w filePath hopen)
    simpa [hr] using h
  refine ⟨⟨fun herr => ?_, fun hall => ?_⟩, fun herr => ⟨hlen, fun i hi => ?_⟩⟩
  · obtain ⟨hs, v, hv⟩ := hhigh herr
    subst hs
    refine ⟨fun i hi => ?_, fun i hi v1 hv1 => ?_⟩
    · rcases Nat.lt_or_eq_of_le hi with hlt | heq
      · obtain ⟨_, v1, _, _, hv1, _, _⟩ := hfill i hlt
        exact ⟨v1, hv1⟩
      · subst heq
        exact ⟨v, hv⟩
    · obtain ⟨_, v2, b, _, hv2, hb, _⟩ := hfill i hi
      rw [hv1] at hv2
      cases hv2
      exact ⟨b, hb⟩
  · have hs : s = r := by
      by_contra hne
      have hlt : s < r := by omega
      obtain ⟨v, hv⟩ := hall.1 s (by omega)
      obtain ⟨b, hb⟩ := hall.2 s hlt v hv
      have hnle : ¬ (firstPass filePath w.lines).length ≤ s := by omega
      simp [StopsAt, hv, hnle, hb] at hstop
    subst hs
    obtain ⟨v, hv⟩ := hall.1 s (le_refl _)
    simpa [StopsAt, hv, hr] using hstop
  · obtain ⟨hs, _⟩ := hhigh herr
    subst hs
    obtain ⟨d0, v, b, _, hv, hb, hout⟩ := hfill i hi
    exact ⟨_, v, b, hout, hv, hb, rfl⟩

theorem LoadYAML_errHighDocumentCount_iff_witness :
    (firstPass "k8s.yaml" overflowView.lines).length = 1 ∧
      (LoadYAML overflowView "k8s.yaml").2 = some .errHighDocumentCount ∧
      (LoadYAML overflowView "k8s.yaml").1.length = 1 ∧
      ∀ i, i < 1 → ∃ doc v b, (LoadYAML overflowView "k8s.yaml").1[i]? = some doc ∧
        overflowView.decode i = .value v ∧ overflowView.marshal v = .ok b ∧
        doc.Data = some b :=
  have h := LoadYAML_errHighDocumentCount_iff overflowView "k8s.yaml" 1 rfl rfl rfl
    (by decide)
  have herr : (LoadYAML overflowView "k8s.yaml").2 = some .errHighDocumentCount :=
    h.1.mpr ⟨fun i hi => by
        interval_cases i
        · exact ⟨docA, rfl⟩
        · exact ⟨docB, rfl⟩,
      fun i hi v hv => by
        interval_cases i
        cases hv
        exact ⟨_, rfl⟩⟩
  ⟨by decide, herr, h.2 herr⟩

/-- C6 (decode failure).  If the decoder reports an error other than the end
of the stream on the document at position `m`, after decoding the positions
below `m` successfully, then `LoadYAML` returns an error, every returned
record at a position `m` or later has unset content, and every populated
content sits at a position below `m` and is the complete re-encoding of the
document decoded at that position. -/
theorem LoadYAML_decode_failure {V : Type} (w : FileView V) (filePath : String)
    (m : Nat) (e : ExtError)
    (hprev : ∀ i, i < m → ∃ v, w.decode i = .value v)
    (hfail : w.decode m = .fail e) :
    (LoadYAML w filePath).2 ≠ none ∧
      (∀ (i : Nat) (doc : IacDocument), (LoadYAML w filePath).1[i]? = some doc →
        m ≤ i → doc.Data = none) ∧
      (∀ (i : Nat) (doc : IacDocument) (b : Bytes),
        (LoadYAML w filePath).1[i]? = some doc → doc.Data = some b →
        i < m ∧ ∃ v, w.decode i = .value v ∧ w.marshal v = .ok b) := by
  cases hopen : w.openErr with
  | some e0 => simp [LoadYAML, hopen]
  | none =>
    obtain ⟨s, hfill, hkeep, hcase⟩ := LoadYAML_positions w filePath hopen
    have hsm : s ≤ m := by
      by_contra hgt
      obtain ⟨_, v, _, _, hv, _, _⟩ := hfill m (by omega)
      rw [hfail] at hv
      cases hv
    have herr : (LoadYAML w filePath).2 ≠ none := by
      rcases hcase with ⟨_, _, h⟩ | ⟨_, _, hstop⟩
      · exact h
      · intro hnone
        rw [hnone] at hstop
        rcases Nat.lt_or_eq_of_le hsm with hlt | heq
        · obtain ⟨v, hv⟩ := hprev s hlt
          unfold StopsAt at hstop
          rw [hv] at hstop
          simp only [] at hstop
          split at hstop
          · cases hstop
          · split at hstop
            · cases hstop
            · exact hstop
        · subst heq
          simp [StopsAt, hfail] at hstop
    have hnone : ∀ (i : Nat) (doc : IacDocument),
        (LoadYAML w filePath).1[i]? = some doc → s ≤ i → doc.Data = none := by
      intro i doc hdoc hi
      rw [hkeep i hi] at hdoc
      exact firstPass_data_none filePath w.lines i doc hdoc
    refine ⟨herr, fun i doc hdoc hi => hnone i doc hdoc (by omega), ?_⟩
    intro i doc b hdoc hb
    have his : i < s := by
      by_contra hge
      rw [hnone i doc hdoc (by omega)] at hb
      cases hb
    obtain ⟨d0, v, b1, _, hv, hb1, hout⟩ := hfill i his
    rw [hdoc] at hout
    cases hout
    cases hb
    exact ⟨by omega, v, hv, hb1⟩

theorem LoadYAML_decode_failure_witness :
    brokenView.decode 1 = .fail "yaml: line 3: did not find expected node content" ∧
      (LoadYAML brokenView "k8s.yaml").2 ≠ none ∧
      (∀ (i : Nat) (doc : IacDocument), (LoadYAML brokenView "k8s.yaml").1[i]? = some doc →
        1 ≤ i → doc.Data = none) ∧
      (∀ (i : Nat) (doc : IacDocument) (b : Bytes),
        (LoadYAML brokenView "k8s.yaml").1[i]? = some doc → doc.Data = some b →
        i < 1 ∧ ∃ v, brokenView.decode i = .value v ∧ brokenView.marshal v = .ok b) :=
  ⟨rfl, LoadYAML_decode_failure brokenView "k8s.yaml" 1
    "yaml: line 3: did not find expected node content"
    (fun i hi => by
      interval_cases i
      exact ⟨docA, rfl⟩) rfl⟩

/-- C7.  For a file with no marker line that is opened, scanned and read
without error and decodes as a single document `v` (then the end of the
stream) whose re-encoding is `b`, `LoadYAML` returns, without error, exactly
one record: it starts at line 1, ends at the end-of-file position
`n + 1` (so that it covers every one of the `n` lines), and has content
`b`. -/
theorem LoadYAML_no_marker_single_document {V : Type} (w : FileView V)
    (filePath : String) (v : V) (b : Bytes)
    (hopen : w.openErr = none) (hscan : w.scanErr = none) (hread : w.readErr = none)
    (hk : countMarkers w.lines = 0)
    (h0 : w.decode 0 = .value v) (hb : w.marshal v = .ok b) (h1 : w.decode 1 = .eof) :
    LoadYAML w filePath =
      ([{ DocType := "yaml", StartLine := 1, EndLine := w.lines.length + 1,
          FilePath := filePath, Data := some b }], none) := by
  rw [LoadYAML_second_pass w filePath hopen hscan hread,
    firstPass_no_marker filePath w.lines hk,
    decodeLoop_step _ _ _ 0 v b h0 (by simp) hb,
    decodeLoop_eof _ _ _ _ h1]
  simp [setData, YAMLDoc]

theorem LoadYAML_no_marker_single_document_witness :
    countMarkers singleDocView.lines = 0 ∧
      LoadYAML singleDocView "k8s.yaml" =
        ([{ DocType := "yaml", StartLine := 1, EndLine := 1 + 1,
            FilePath := "k8s.yaml", Data := some [97, 58, 32, 49, 10] }], none) :=
  ⟨by decide, LoadYAML_no_marker_single_document singleDocView "k8s.yaml" docA
    [97, 58, 32, 49, 10] rfl rfl rfl (by decide) rfl rfl rfl⟩

/-- C8, as amended.  For a file that could be opened and whose last scanned
line is a marker line, the last record returned by `LoadYAML` covers only the
end-of-file position `n + 1`, and its content is unset unless the second pass
is reached and decodes and re-encodes without error a document at every
position up to the position `k` of that record (`k` being the number of
marker lines); a content it holds is the re-encoding of the document decoded
at position `k`. -/
theorem LoadYAML_trailing_after_marker {V : Type} (w : FileView V)
    (filePath : String) (text : String) (hopen : w.openErr = none)
    (hlast : w.lines.getLast? = some text) (hmark : HasPrefix text "---" = true) :
    ∃ doc, (LoadYAML w filePath).1.getLast? = some doc ∧
      doc.StartLine = w.lines.length + 1 ∧ doc.EndLine = w.lines.length + 1 ∧
      (doc.Data = none ↔
        ¬ (w.scanErr = none ∧ w.readErr = none ∧
          ∀ i, i ≤ countMarkers w.lines →
            ∃ v b, w.decode i = .value v ∧ w.marshal v = .ok b)) ∧
      (∀ b, doc.Data = some b →
        ∃ v, w.decode (countMarkers w.lines) = .value v ∧ w.marshal v = .ok b) := by
  have hlen := LoadYAML_length w filePath hopen
  have hflen := firstPass_length filePath w.lines
  have hk : countMarkers w.lines < (LoadYAML w filePath).1.length := by omega
  have hkf : countMarkers w.lines < (firstPass filePath w.lines).length := by omega
  have hidx : (LoadYAML w filePath).1.getLast? =
      (LoadYAML w filePath).1[countMarkers w.lines]? := by
    rw [List.getLast?_eq_getElem?, hlen]
    rfl
  -- the trailing record of the first pass
  have hfirst : (firstPass filePath w.lines)[countMarkers w.lines]? =
      some ⟨YAMLDoc, w.lines.length + 1, w.lines.length + 1, filePath, none⟩ := by
    have hget : (firstPass filePath w.lines).getLast? =
        (firstPass filePath w.lines)[countMarkers w.lines]? := by
      rw [List.getLast?_eq_getElem?, hflen]
      rfl
    rw [← hget]
    unfold firstPass
    rw [List.getLast?_concat, scanLoop_ends_on_marker filePath _ w.lines text hlast hmark,
      scanLoop_currentLineNumber]
    simp [Nat.add_comm]
  obtain ⟨s, hfill, hkeep, hcase⟩ := LoadYAML_positions w filePath hopen
  rw [hidx]
  by_cases hks : countMarkers w.lines < s
  · -- the loop stored a document in the trailing record
    obtain ⟨d0, v, b, hd0, hv, hb, hout⟩ := hfill _ hks
    rw [hfirst] at hd0
    cases hd0
    refine ⟨_, hout, rfl, rfl, ?_, ?_⟩
    · constructor
      · intro h
        cases h
      · intro h
        exfalso
        apply h
        rcases hcase with ⟨_, h0, _⟩ | ⟨h1, h2, _⟩
        · omega
        · refine ⟨h1, h2, fun i hi => ?_⟩
          obtain ⟨_, v1, b1, _, hv1, hb1, _⟩ := hfill i (by omega)
          exact ⟨v1, b1, hv1, hb1⟩
    · intro b1 hb1
      cases hb1
      exact ⟨v, hv, hb⟩
  · -- the trailing record is the one of the first pass
    have hout := hkeep (countMarkers w.lines) (by omega)
    rw [hfirst] at hout
    refine ⟨_, hout, rfl, rfl, ?_, ?_⟩
    · constructor
      · intro _ hall
        obtain ⟨hs1, hs2, hall⟩ := hall
        rcases hcase with ⟨h0, _, _⟩ | ⟨_, _, hstop⟩
        · rcases h0 with h | h
          · exact h hs1
          · exact h hs2
        · obtain ⟨v, b, hv, hb⟩ := hall s (by omega)
          have hnle : ¬ (firstPass filePath w.lines).length ≤ s := by omega
          simp [StopsAt, hv, hnle, hb] at hstop
      · intro _
        rfl
    · intro b1 hb1
      cases hb1

theorem LoadYAML_trailing_after_marker_witness :
    shortView.lines.getLast? = some "---" ∧ HasPrefix "---" "---" = true ∧
      ∃ doc, (LoadYAML shortView "k8s.yaml").1.getLast? = some doc ∧
        doc.StartLine = shortView.lines.length + 1 ∧
        doc.EndLine = shortView.lines.length + 1 ∧
        (doc.Data = none ↔
          ¬ (shortView.scanErr = none ∧ shortView.readErr = none ∧
            ∀ i, i ≤ countMarkers shortView.lines →
              ∃ v b, shortView.decode i = .value v ∧ shortView.marshal v = .ok b)) ∧
        (∀ b, doc.Data = some b →
          ∃ v, shortView.decode (countMarkers shortView.lines) = .value v ∧
            shortView.marshal v = .ok b) :=
  ⟨rfl, by decide,
    LoadYAML_trailing_after_marker shortView "k8s.yaml" "---" rfl rfl (by decide)⟩

/-- C8, counterexample.  The file `a: 1`, `---`, `b: 2`, `---` ends on a
marker line; the decoder yields three documents, the third one being the null
document of the empty section after the last marker, and `LoadYAML` stores
its re-encoding `null` in the trailing record. -/
theorem scenario_trailing_record_populated :
    scenarioView.lines.getLast? = some "---" ∧ HasPrefix "---" "---" = true ∧
      (LoadYAML scenarioView "k8s.yaml").2 = none ∧
      ∃ doc, (LoadYAML scenarioView "k8s.yaml").1.getLast? = some doc ∧
        doc.Data = some [110, 117, 108, 108, 10] ∧ doc.Data ≠ none := by
  rw [scenarioView_result]
  exact ⟨rfl, by decide, rfl, _, rfl, rfl, by decide⟩

/-- C9 (concrete scenario).  For the file whose lines are `a: 1`, `---`,
`b: 2`, `---`, the boundary scan yields exactly three records: lines 1-2,
lines 3-4, and the trailing record with start line 5 and end line 5; and
those are the line ranges of the records `LoadYAML` returns for any file with
these lines that could be opened. -/
theorem firstPass_scenario (filePath : String) :
    firstPass filePath ["a: 1", "---", "b: 2", "---"] =
        [⟨YAMLDoc, 1, 2, filePath, none⟩, ⟨YAMLDoc, 3, 4, filePath, none⟩,
         ⟨YAMLDoc, 5, 5, filePath, none⟩] ∧
      ∀ (V : Type) (w : FileView V), w.openErr = none →
        w.lines = ["a: 1", "---", "b: 2", "---"] →
        (LoadYAML w filePath).1.map (fun d => (d.StartLine, d.EndLine)) =
          [(1, 2), (3, 4), (5, 5)] := by
  have hscan : firstPass filePath ["a: 1", "---", "b: 2", "---"] =
      [⟨YAMLDoc, 1, 2, filePath, none⟩, ⟨YAMLDoc, 3, 4, filePath, none⟩,
       ⟨YAMLDoc, 5, 5, filePath, none⟩] := by
    simp [firstPass, scanLoop, scanStep, HasPrefix]
  refine ⟨hscan, fun V w hopen hlines => ?_⟩
  have h := LoadYAML_map_stripData w filePath hopen
  rw [hlines, hscan] at h
  have h2 := congrArg (List.map (fun d : IacDocument => (d.StartLine, d.EndLine))) h
  simpa [stripData, Function.comp_def] using h2

theorem firstPass_scenario_witness :
    scenarioView.openErr = none ∧
      scenarioView.lines = ["a: 1", "---", "b: 2", "---"] ∧
      (LoadYAML scenarioView "k8s.yaml").1.map (fun d => (d.StartLine, d.EndLine)) =
        [(1, 2), (3, 4), (5, 5)] :=
  ⟨rfl, rfl, (firstPass_scenario "k8s.yaml").2 SampleValue scenarioView rfl rfl⟩

/-- C10.  Every record returned by `LoadYAML w filePath`, on success or on
error, has its type equal to the constant `"yaml"` and its file path equal to
the argument `filePath`. -/
theorem LoadYAML_type_and_path {V : Type} (w : FileView V) (filePath : String)
    (d : IacDocument) (hd : d ∈ (LoadYAML w filePath).1) :
    d.DocType = "yaml" ∧ d.FilePath = filePath := by
  cases hopen : w.openErr with
  | some e =>
    simp [LoadYAML, hopen] at hd
  | none =>
    have hmem : stripData d ∈ (LoadYAML w filePath).1.map stripData :=
      List.mem_map_of_mem _ hd
    rw [LoadYAML_map_stripData w filePath hopen] at hmem
    obtain ⟨d0, hd0, heq⟩ := List.mem_map.mp hmem
    have hf := firstPass_fields filePath w.lines d0 hd0
    have h1 : d0.DocType = d.DocType := by
      have := congrArg IacDocument.DocType heq
      exact this
    have h2 : d0.FilePath = d.FilePath := by
      have := congrArg IacDocument.FilePath heq
      exact this
    exact ⟨h1 ▸ hf.1, h2 ▸ hf.2.1⟩

theorem LoadYAML_type_and_path_witness :
    (⟨"yaml", 3, 4, "k8s.yaml", some [98, 58, 32, 50, 10]⟩ : IacDocument) ∈
        (LoadYAML scenarioView "k8s.yaml").1 ∧
      (⟨"yaml", 3, 4, "k8s.yaml", some [98, 58, 32, 50, 10]⟩ : IacDocument).DocType = "yaml" ∧
      (⟨"yaml", 3, 4, "k8s.yaml", some [98, 58, 32, 50, 10]⟩ : IacDocument).FilePath =
        "k8s.yaml" :=
  ⟨by rw [scenarioView_result]; simp,
    LoadYAML_type_and_path scenarioView "k8s.yaml" _ (by rw [scenarioView_result]; simp)⟩

/-- C11 (marker lines close records).  The scan closes a record on a line
exactly when the text of the line has `---` as a prefix: `----` and `--- x`
are markers, ` ---` is not.  The list `markerLines` holds exactly the 1-based
numbers of those lines, in increasing order, `k` of them; and when `m` is the
entry number `j` of that list (from 0), record `j` returned by `LoadYAML` has
end line `m` and record `j + 1` has start line `m + 1`. -/
theorem LoadYAML_marker_lines {V : Type} (w : FileView V) (filePath : String)
    (hopen : w.openErr = none) :
    (∀ (st : ScanState) (text : String),
        (scanStep filePath st text).iacDocumentList.length =
            st.iacDocumentList.length + 1 ↔
          ∃ rest : String, text = "---" ++ rest) ∧
      HasPrefix "----" "---" = true ∧ HasPrefix "--- x" "---" = true ∧
      HasPrefix " ---" "---" = false ∧
      (∀ m, m ∈ markerLines w.lines ↔
        ∃ i text, w.lines[i]? = some text ∧ HasPrefix text "---" = true ∧ m = 1 + i) ∧
      List.Pairwise (fun a b => a < b) (markerLines w.lines) ∧
      (markerLines w.lines).length = countMarkers w.lines ∧
      ∀ (j m : Nat), (markerLines w.lines)[j]? = some m →
        ∃ a b, (LoadYAML w filePath).1[j]? = some a ∧
          (LoadYAML w filePath).1[j + 1]? = some b ∧
          a.EndLine = m ∧ b.StartLine = m + 1 := by
  refine ⟨fun st text => ?_, by decide, by decide, by decide,
    fun m => mem_markerLinesFrom 1 w.lines m, markerLinesFrom_increasing 1 w.lines,
    length_markerLinesFrom 1 w.lines, fun j m hm => ?_⟩
  · rw [scanStep_length, ← HasPrefix_iff]
    by_cases h : HasPrefix text "---" = true <;> simp [h]
  · have hjk : j < (markerLines w.lines).length := by
      by_contra hge
      rw [List.getElem?_eq_none (by omega)] at hm
      cases hm
    have hk : (markerLines w.lines).length = countMarkers w.lines :=
      length_markerLinesFrom 1 w.lines
    have hlen := LoadYAML_length w filePath hopen
    have hj : j < (LoadYAML w filePath).1.length := by omega
    have hj1 : j + 1 < (LoadYAML w filePath).1.length := by omega
    have ha : (LoadYAML w filePath).1[j]? = some (LoadYAML w filePath).1[j] :=
      List.getElem?_eq_getElem hj
    have hb : (LoadYAML w filePath).1[j + 1]? = some (LoadYAML w filePath).1[j + 1] :=
      List.getElem?_eq_getElem hj1
    have hend : (LoadYAML w filePath).1[j].EndLine = m := by
      have h := congrArg (fun l : List Nat => l[j]?) (LoadYAML_EndLines w filePath hopen)
      simp only [List.getElem?_map, ha, Option.map_some'] at h
      rw [List.getElem?_append_left hjk, hm] at h
      exact Option.some.inj h
    refine ⟨_, _, ha, hb, hend, ?_⟩
    have hadj := Linked_adjacent _ _ _ j _ _ (LoadYAML_linked w filePath hopen) ha hb
    omega

theorem LoadYAML_marker_lines_witness :
    markerLines scenarioView.lines = [2, 4] ∧
      ∀ (j m : Nat), (markerLines scenarioView.lines)[j]? = some m →
        ∃ a b, (LoadYAML scenarioView "k8s.yaml").1[j]? = some a ∧
          (LoadYAML scenarioView "k8s.yaml").1[j + 1]? = some b ∧
          a.EndLine = m ∧ b.StartLine = m + 1 :=
  ⟨by decide,
    (LoadYAML_marker_lines scenarioView "k8s.yaml" rfl).2.2.2.2.2.2.2⟩

/-- C12, as amended.  The line ranges of adjacent records returned by
`LoadYAML` do not overlap: the end line of record `i`, which is the line
number of marker line `i` and lies in the range of record `i`, is strictly
below the start line of record `i + 1`, hence outside the range of record
`i + 1`. -/
theorem LoadYAML_adjacent_ranges_disjoint {V : Type} (w : FileView V)
    (filePath : String) (hopen : w.openErr = none) (i : Nat) (a b : IacDocument)
    (ha : (LoadYAML w filePath).1[i]? = some a)
    (hb : (LoadYAML w filePath).1[i + 1]? = some b) :
    (markerLines w.lines)[i]? = some a.EndLine ∧
      (a.StartLine ≤ a.EndLine ∧ a.EndLine ≤ a.EndLine) ∧
      a.EndLine < b.StartLine ∧
      ¬ (b.StartLine ≤ a.EndLine ∧ a.EndLine ≤ b.EndLine) := by
  have hadj := Linked_adjacent _ _ _ i a b (LoadYAML_linked w filePath hopen) ha hb
  have hlen := LoadYAML_length w filePath hopen
  have hk : (markerLines w.lines).length = countMarkers w.lines :=
    length_markerLinesFrom 1 w.lines
  have hi1 : i + 1 < (LoadYAML w filePath).1.length := by
    by_contra hge
    rw [List.getElem?_eq_none (by omega)] at hb
    cases hb
  have hik : i < (markerLines w.lines).length := by omega
  have hend : (markerLines w.lines)[i]? = some a.EndLine := by
    have h := congrArg (fun l : List Nat => l[i]?) (LoadYAML_EndLines w filePath hopen)
    simp only [List.getElem?_map, ha, Option.map_some'] at h
    rw [List.getElem?_append_left hik] at h
    exact h.symm
  have hord : a.StartLine ≤ a.EndLine := by
    obtain ⟨d0, hd0, _⟩ : ∃ d0, d0 ∈ firstPass filePath w.lines ∧
        stripData d0 = stripData a := by
      have hmem : stripData a ∈ (LoadYAML w filePath).1.map stripData :=
        List.mem_map_of_mem _ (List.mem_iff_getElem?.mpr ⟨i, ha⟩)
      rw [LoadYAML_map_stripData w filePath hopen] at hmem
      obtain ⟨d0, h1, h2⟩ := List.mem_map.mp hmem
      exact ⟨d0, h1, h2⟩
    have h0 := firstPass_ordered filePath w.lines d0 hd0
    have h1 : d0.StartLine = a.StartLine := by
      have := congrArg IacDocument.StartLine ‹stripData d0 = stripData a›
      exact this
    have h2 : d0.EndLine = a.EndLine := by
      have := congrArg IacDocument.EndLine ‹stripData d0 = stripData a›
      exact this
    omega
  exact ⟨hend, ⟨hord, le_refl _⟩, by omega, by omega⟩

theorem LoadYAML_adjacent_ranges_disjoint_witness :
    (markerLines scenarioView.lines)[0]? = some 2 ∧
      ((1 : Nat) ≤ 2 ∧ (2 : Nat) ≤ 2) ∧ (2 : Nat) < 3 ∧ ¬ ((3 : Nat) ≤ 2 ∧ (2 : Nat) ≤ 4) :=
  LoadYAML_adjacent_ranges_disjoint scenarioView "k8s.yaml" rfl 0
    ⟨"yaml", 1, 2, "k8s.yaml", some [97, 58, 32, 49, 10]⟩
    ⟨"yaml", 3, 4, "k8s.yaml", some [98, 58, 32, 50, 10]⟩
    (by rw [scenarioView_result]; rfl) (by rw [scenarioView_result]; rfl)

/-- C12, counterexample.  In the file `a: 1`, `---`, `b: 2`, `---` the marker
line 2 is the end line of record 0, and record 1 has the range 3 to 4, which
does not contain line 2. -/
theorem scenario_marker_line_outside_next_range :
    scenarioView.lines[1]? = some "---" ∧
      ∃ a b, (LoadYAML scenarioView "k8s.yaml").1[0]? = some a ∧
        (LoadYAML scenarioView "k8s.yaml").1[0 + 1]? = some b ∧
        a.EndLine = 2 ∧ b.StartLine = 3 ∧ b.EndLine = 4 ∧
        ¬ (b.StartLine ≤ a.EndLine ∧ a.EndLine ≤ b.EndLine) := by
  rw [scenarioView_result]
  exact ⟨rfl, _, _, rfl, rfl, rfl, rfl, rfl, by decide⟩

/-- C13 (frame of the second pass).  For a file that could be opened, for
every list of lines and every behaviour of the decoder and the encoder, the
list `LoadYAML` returns has the length of the list of the boundary scan, and
at every position its record is the record of the boundary scan with at most
`Data` changed: type, start line, end line and file path are the same. -/
theorem LoadYAML_frame {V : Type} (w : FileView V) (filePath : String)
    (hopen : w.openErr = none) :
    (LoadYAML w filePath).1.length = (firstPass filePath w.lines).length ∧
      ∀ (i : Nat) (b : IacDocument), (firstPass filePath w.lines)[i]? = some b →
        ∃ a, (LoadYAML w filePath).1[i]? = some a ∧
          a = { b with Data := a.Data } ∧
          a.DocType = b.DocType ∧ a.StartLine = b.StartLine ∧
          a.EndLine = b.EndLine ∧ a.FilePath = b.FilePath := by
  refine ⟨?_, fun i b hb => ?_⟩
  · rw [LoadYAML_length w filePath hopen, firstPass_length]
  · obtain ⟨a, ha, hab⟩ := LoadYAML_getElem?_frame w filePath hopen i b hb
    refine ⟨a, ha, hab, ?_, ?_, ?_, ?_⟩
    · have h := congrArg IacDocument.DocType hab
      exact h
    · have h := congrArg IacDocument.StartLine hab
      exact h
    · have h := congrArg IacDocument.EndLine hab
      exact h
    · have h := congrArg IacDocument.FilePath hab
      exact h

theorem LoadYAML_frame_witness :
    (LoadYAML brokenView "k8s.yaml").2 ≠ none ∧
      (LoadYAML brokenView "k8s.yaml").1.length =
        (firstPass "k8s.yaml" brokenView.lines).length ∧
      ∀ (i : Nat) (b : IacDocument),
        (firstPass "k8s.yaml" brokenView.lines)[i]? = some b →
        ∃ a, (LoadYAML brokenView "k8s.yaml").1[i]? = some a ∧
          a = { b with Data := a.Data } ∧
          a.DocType = b.DocType ∧ a.StartLine = b.StartLine ∧
          a.EndLine = b.EndLine ∧ a.FilePath = b.FilePath :=
  ⟨by simp [LoadYAML, brokenView, firstPass, scanLoop, scanStep, HasPrefix, decodeLoop,
      setData, sampleMarshal, docA],
    LoadYAML_frame brokenView "k8s.yaml" rfl⟩

/-- C14 (line-scan failure).  If the file could be opened and the line reader
fails with the error `e` after delivering `j` lines of which `k` begin with
`---`, then `LoadYAML` returns the error `e` together with the records of the
boundary scan: `k + 1` of them, the `k` records closed at the marker lines
followed by the final record, whose end line is `j + 1`.  Every record has
unset content, and the result does not depend on the read error, the decoder
or the encoder: the second pass is not run. -/
theorem LoadYAML_scan_failure {V : Type} (w : FileView V) (filePath : String)
    (e : ExtError) (j k : Nat) (hopen : w.openErr = none)
    (hscan : w.scanErr = some e) (hj : w.lines.length = j)
    (hk : countMarkers w.lines = k) :
    LoadYAML w filePath = (firstPass filePath w.lines, some (.external e)) ∧
      (LoadYAML w filePath).1.length = k + 1 ∧
      (LoadYAML w filePath).1.map IacDocument.EndLine = markerLines w.lines ++ [j + 1] ∧
      (∃ d, (LoadYAML w filePath).1.getLast? = some d ∧ d.EndLine = j + 1) ∧
      (∀ d ∈ (LoadYAML w filePath).1, d.Data = none) ∧
      ∀ (other : FileView V), other.openErr = none → other.lines = w.lines →
        other.scanErr = w.scanErr → LoadYAML other filePath = LoadYAML w filePath := by
  have hres : LoadYAML w filePath = (firstPass filePath w.lines, some (.external e)) := by
    simp [LoadYAML, hopen, hscan]
  refine ⟨hres, ?_, ?_, ?_, ?_, ?_⟩
  · rw [← hk]
    exact LoadYAML_length w filePath hopen
  · rw [← hj]
    exact LoadYAML_EndLines w filePath hopen
  · have hlinked := LoadYAML_linked w filePath hopen
    have hlen := LoadYAML_length w filePath hopen
    cases hl : (LoadYAML w filePath).1.getLast? with
    | none =>
      rw [List.getLast?_eq_none_iff] at hl
      rw [hl] at hlen
      simp at hlen
    | some d =>
      have := Linked_last _ _ _ d hlinked hl
      exact ⟨d, rfl, by omega⟩
  · rw [hres]
    intro d hd
    exact (firstPass_fields filePath w.lines d hd).2.2
  · intro other ho hl hs
    rw [hres]
    simp [LoadYAML, ho, hs, hscan, hl]

theorem LoadYAML_scan_failure_witness :
    LoadYAML scanFailureView "k8s.yaml" =
        (firstPass "k8s.yaml" scanFailureView.lines,
          some (.external "bufio.Scanner: token too long")) ∧
      (LoadYAML scanFailureView "k8s.yaml").1.length = 1 + 1 ∧
      (LoadYAML scanFailureView "k8s.yaml").1.map IacDocument.EndLine =
        markerLines scanFailureView.lines ++ [3 + 1] ∧
      (∃ d, (LoadYAML scanFailureView "k8s.yaml").1.getLast? = some d ∧
        d.EndLine = 3 + 1) ∧
      (∀ d ∈ (LoadYAML scanFailureView "k8s.yaml").1, d.Data = none) ∧
      ∀ (other : FileView SampleValue), other.openErr = none →
        other.lines = scanFailureView.lines →
        other.scanErr = scanFailureView.scanErr →
        LoadYAML other "k8s.yaml" = LoadYAML scanFailureView "k8s.yaml" :=
  LoadYAML_scan_failure scanFailureView "k8s.yaml" "bufio.Scanner: token too long"
    3 1 rfl rfl rfl (by decide)

/-- C15.  Every record produced by the boundary scan has its start line at or
below its end line, for every list of lines.  An earlier record ends before a
later one starts, so the ranges are pairwise disjoint; and a line number lies
in the range of some record exactly when it is between 1 and `n + 1`, for a
file of `n` lines. -/
theorem firstPass_ranges (filePath : String) (lines : List String) :
    (∀ d ∈ firstPass filePath lines, d.StartLine ≤ d.EndLine) ∧
      (∀ (i j : Nat) (a b : IacDocument), i < j →
        (firstPass filePath lines)[i]? = some a →
        (firstPass filePath lines)[j]? = some b → a.EndLine < b.StartLine) ∧
      ∀ l : Nat, (∃ d ∈ firstPass filePath lines, d.StartLine ≤ l ∧ l ≤ d.EndLine) ↔
        (1 ≤ l ∧ l ≤ lines.length + 1) := by
  have hord := firstPass_ordered filePath lines
  have hlinked := firstPass_linked filePath lines
  refine ⟨hord, fun i j a b hij ha hb =>
    Linked_disjoint _ _ _ hlinked hord i j a b hij ha hb, fun l => ?_⟩
  rw [(Linked_cover _ _ _ hlinked hord).2 l]
  omega

theorem firstPass_ranges_witness :
    firstPass "k8s.yaml" ["---", "---"] =
        [⟨"yaml", 1, 1, "k8s.yaml", none⟩, ⟨"yaml", 2, 2, "k8s.yaml", none⟩,
         ⟨"yaml", 3, 3, "k8s.yaml", none⟩] ∧
      firstPass "k8s.yaml" [] = [⟨"yaml", 1, 1, "k8s.yaml", none⟩] ∧
      (∀ d ∈ firstPass "k8s.yaml" ["---", "---"], d.StartLine ≤ d.EndLine) ∧
      (∀ (i j : Nat) (a b : IacDocument), i < j →
        (firstPass "k8s.yaml" ["---", "---"])[i]? = some a →
        (firstPass "k8s.yaml" ["---", "---"])[j]? = some b → a.EndLine < b.StartLine) ∧
      ∀ l : Nat,
        (∃ d ∈ firstPass "k8s.yaml" ["---", "---"], d.StartLine ≤ l ∧ l ≤ d.EndLine) ↔
          (1 ≤ l ∧ l ≤ 2 + 1) :=
  ⟨by decide, by decide, firstPass_ranges "k8s.yaml" ["---", "---"]⟩

/-- C16.  The decode/reconcile loop terminates whatever the decoder does:
`decodeLoop` and `decodeSteps` are total functions, defined by recursion on
the number of records left after the index, for an arbitrary stream of decoder
outcomes.  Run on `r` records from index 0, the loop calls the decoder at
most `r + 1` times and assigns at most `r` contents; when it makes call
number `r + 1` and that call decodes a document, it returns
`errHighDocumentCount`; and its result is the same for any two decoders that
agree on the first `r + 1` calls. -/
theorem decodeLoop_bounded {V : Type} (decode : Nat → DecodeResult V)
    (marshal : V → Except ExtError Bytes) (docs : List IacDocument) (r : Nat)
    (hr : docs.length = r) :
    (decodeSteps decode marshal docs 0).1 ≤ r + 1 ∧
      (decodeSteps decode marshal docs 0).2 ≤ r ∧
      (∀ v, (decodeSteps decode marshal docs 0).1 = r + 1 → decode r = .value v →
        (decodeLoop decode marshal docs 0).2 = some .errHighDocumentCount) ∧
      ∀ other : Nat → DecodeResult V, (∀ j, j ≤ r → other j = decode j) →
        decodeLoop other marshal docs 0 = decodeLoop decode marshal docs 0 := by
  obtain ⟨h1, h2, h3⟩ := decodeSteps_spec decode marshal docs 0
  subst hr
  refine ⟨by omega, by omega, fun v hcalls hv => ?_, fun other hsame => ?_⟩
  · have hs : 0 + (decodeSteps decode marshal docs 0).2 = docs.length := by omega
    rw [hs] at h3
    simpa [StopsAt, hv] using h3
  · exact decodeLoop_congr decode other marshal docs 0 (Nat.zero_le _)
      (fun j _ hj => hsame j hj)

theorem decodeLoop_bounded_witness :
    (firstPass "k8s.yaml" endlessView.lines).length = 2 ∧
      decodeSteps endlessView.decode endlessView.marshal
        (firstPass "k8s.yaml" endlessView.lines) 0 = (2 + 1, 2) ∧
      (LoadYAML endlessView "k8s.yaml").2 = some .errHighDocumentCount :=
  have hlen : (firstPass "k8s.yaml" endlessView.lines).length = 2 := by decide
  have hsteps : decodeSteps endlessView.decode endlessView.marshal
      (firstPass "k8s.yaml" endlessView.lines) 0 = (2 + 1, 2) := by
    simp [endlessView, firstPass, scanLoop, scanStep, HasPrefix, decodeSteps, setData,
      sampleMarshal]
  ⟨hlen, hsteps, by
    rw [LoadYAML_second_pass endlessView "k8s.yaml" rfl rfl rfl]
    exact (decodeLoop_bounded endlessView.decode endlessView.marshal
      (firstPass "k8s.yaml" endlessView.lines) 2 hlen).2.2.1 SampleValue.null
      (by rw [hsteps]) rfl⟩

/-- C17.  For a file that could be opened and whose first line begins with
`---`, record 0 returned by `LoadYAML` has start line 1 and end line 1.  If
the second pass is reached and the decoder yields a first document whose
re-encoding is `b`, then `b` is the content of record 0.  Record 1, which
starts at line 2 and so covers the lines after the leading marker, has either
unset content or the re-encoding of the second decoded document. -/
theorem LoadYAML_leading_marker {V : Type} (w : FileView V) (filePath : String)
    (text : String) (rest : List String) (hopen : w.openErr = none)
    (hlines : w.lines = text :: rest) (hmark : HasPrefix text "---" = true) :
    (∃ d0, (LoadYAML w filePath).1[0]? = some d0 ∧
        d0.StartLine = 1 ∧ d0.EndLine = 1 ∧
        ∀ (v : V) (b : Bytes), w.scanErr = none → w.readErr = none →
          w.decode 0 = .value v → w.marshal v = .ok b → d0.Data = some b) ∧
      ∃ d1, (LoadYAML w filePath).1[1]? = some d1 ∧ d1.StartLine = 2 ∧
        (d1.Data = none ∨
          ∃ v b, w.decode 1 = .value v ∧ w.marshal v = .ok b ∧ d1.Data = some b) := by
  have hfirst : (firstPass filePath w.lines)[0]? =
      some ⟨YAMLDoc, 1, 1, filePath, none⟩ := by
    rw [hlines]
    exact firstPass_leading_marker filePath text rest hmark
  have hflen : 2 ≤ (firstPass filePath w.lines).length := by
    rw [firstPass_length, hlines, countMarkers_cons, if_pos hmark]
    omega
  have hlen : 2 ≤ (LoadYAML w filePath).1.length := by
    rw [LoadYAML_length w filePath hopen, ← firstPass_length filePath]
    exact hflen
  obtain ⟨s, hfill, hkeep, hcase⟩ := LoadYAML_positions w filePath hopen
  -- record 0
  have h0 : ∃ d0, (LoadYAML w filePath).1[0]? = some d0 ∧
      d0.StartLine = 1 ∧ d0.EndLine = 1 ∧
      ∀ (v : V) (b : Bytes), w.scanErr = none → w.readErr = none →
        w.decode 0 = .value v → w.marshal v = .ok b → d0.Data = some b := by
    by_cases hs : 0 < s
    · obtain ⟨d, v0, b0, hd, hv0, hb0, hout⟩ := hfill 0 hs
      rw [hfirst] at hd
      cases hd
      refine ⟨_, hout, rfl, rfl, fun v b _ _ hv hb => ?_⟩
      rw [hv0] at hv
      cases hv
      rw [hb0] at hb
      cases hb
      rfl
    · have hout := hkeep 0 (by omega)
      rw [hfirst] at hout
      refine ⟨_, hout, rfl, rfl, fun v b hscan hread hv hb => ?_⟩
      exfalso
      rcases hcase with ⟨hbad, _, _⟩ | ⟨_, _, hstop⟩
      · rcases hbad with h | h
        · exact h hscan
        · exact h hread
      · have hs0 : s = 0 := by omega
        subst hs0
        have hnle : ¬ (firstPass filePath w.lines).length ≤ 0 := by omega
        simp [StopsAt, hv, hnle, hb] at hstop
  obtain ⟨d0, hd0, hstart0, hend0, hdata0⟩ := h0
  refine ⟨⟨d0, hd0, hstart0, hend0, hdata0⟩, ?_⟩
  -- record 1
  have h1lt : 1 < (LoadYAML w filePath).1.length := by omega
  obtain ⟨d1, hd1⟩ : ∃ d1, (LoadYAML w filePath).1[1]? = some d1 :=
    ⟨_, List.getElem?_eq_getElem h1lt⟩
  have hadj := Linked_adjacent _ _ _ 0 d0 d1 (LoadYAML_linked w filePath hopen) hd0 hd1
  refine ⟨d1, hd1, by omega, ?_⟩
  by_cases hs : 1 < s
  · obtain ⟨d, v1, b1, _, hv1, hb1, hout⟩ := hfill 1 hs
    rw [hd1] at hout
    cases hout
    exact Or.inr ⟨v1, b1, hv1, hb1, rfl⟩
  · have hout := hkeep 1 (by omega)
    rw [hd1] at hout
    exact Or.inl (firstPass_data_none filePath w.lines 1 _ hout.symm)

theorem LoadYAML_leading_marker_witness :
    leadingMarkerView.lines = "---" :: ["a: 1"] ∧ HasPrefix "---" "---" = true ∧
      (∃ d0, (LoadYAML leadingMarkerView "k8s.yaml").1[0]? = some d0 ∧
        d0.StartLine = 1 ∧ d0.EndLine = 1 ∧ d0.Data = some [97, 58, 32, 49, 10]) ∧
      ∃ d1, (LoadYAML leadingMarkerView "k8s.yaml").1[1]? = some d1 ∧ d1.StartLine = 2 ∧
        (d1.Data = none ∨
          ∃ v b, leadingMarkerView.decode 1 = .value v ∧
            leadingMarkerView.marshal v = .ok b ∧ d1.Data = some b) :=
  have h := LoadYAML_leading_marker leadingMarkerView "k8s.yaml" "---" ["a: 1"] rfl rfl
    (by decide)
  ⟨rfl, by decide,
    (let ⟨d0, h1, h2, h3, h4⟩ := h.1
     ⟨d0, h1, h2, h3, h4 docA [97, 58, 32, 49, 10] rfl rfl rfl rfl⟩),
    h.2⟩

end utils
